import Mathlib

/-!
A shallow embedding of the constrained-quadratic-model bookkeeping core of
`dimod/constrained.py`: the typed variable registry (`TypedVariables`), the
constraint store with discrete-group tracking (`ConstrainedQuadraticModel`),
and the archive codec (`to_file` / `from_file`), together with theorems
about the specified properties of these operations.

Modelling conventions:
* variable labels and constraint labels are naturals;
* Python floats (biases, bounds, right-hand sides) are modelled as
  rationals;
* Python dictionaries are modelled as insertion-ordered association lists
  with first-match lookup;
* the opaque single-expression codec (`dimod.serialization.fileview.load`
  and the expressions' `to_file`, external collaborators that the spec
  requires to be two-sided inverses) is modelled as exact, so archive
  entries hold the expression values themselves;
* the label serializer plus the JSON layer (`serialize_variable` /
  `deserialize_variable`, imported by the source but not among the given
  files; the spec requires the pair to be a two-sided inverse) is modelled
  as exact, so archive entries are keyed by the label itself;
* exceptions are modelled by returning the error kind together with the
  state at the moment of the raise, so partial mutation that the source
  performs before raising stays observable.
-/

deriving instance DecidableEq for Except

namespace Dimod

/-- Variable labels (hashable Python labels, modelled as naturals). -/
abbrev V : Type := Nat

/-- Constraint labels. -/
abbrev CLabel : Type := Nat

/-- Numeric biases, bounds and right-hand sides (Python floats, modelled
as rationals). -/
abbrev Bias : Type := Rat

/-- Variable types, including the extended `DISCRETE` tag. -/
inductive Vartype
  | SPIN
  | BINARY
  | INTEGER
  | REAL
  | DISCRETE
deriving DecidableEq

/-- Abstract error kinds of the bookkeeping core.  The source raises
`TypeError` / `ValueError`; the spec names the conditions, and each
constructor corresponds to one raise site.  `labelSpaceExhausted` models
the source's label-retry loop running out of fresh candidates (in the
source the loop would simply keep drawing). -/
inductive Err
  | typeConflict
  | boundConflict
  | duplicateLabel
  | discreteConflict
  | unexpectedSense
  | formatVersionUnsupported
  | malformedArchive
  | labelSpaceExhausted
deriving DecidableEq

/-- First-match association-list lookup (Python `dict` access with
insertion order kept). -/
def alookup {β : Type} (k : Nat) : List (Nat × β) → Option β
  | [] => none
  | (k', b) :: rest => if k = k' then some b else alookup k rest

/-- Python `dict.setdefault`: return the stored value, inserting the
default first when the key is absent. -/
def setdefault (k : Nat) (d : Bias) (l : List (Nat × Bias)) :
    Bias × List (Nat × Bias) :=
  match alookup k l with
  | some b => (b, l)
  | none => (d, l ++ [(k, d)])

/-- The typed variable registry: insertion-ordered labels with a parallel
vartype per label (kept here as label/vartype pairs), plus the two bound
dictionaries. -/
structure TypedVariables where
  entries : List (V × Vartype)
  lowerBounds : List (V × Bias)
  upperBounds : List (V × Bias)
deriving DecidableEq

def TypedVariables.empty : TypedVariables := ⟨[], [], []⟩

/-- `TypedVariables.vartype`: the vartype recorded for a label. -/
def TypedVariables.vartypeOf (tv : TypedVariables) (v : V) : Option Vartype :=
  alookup v tv.entries

/-- One bound check of `TypedVariables._append`: Python
`b is not None and b != dict.setdefault(v, b)`.  On a conflict the
dictionary is unchanged (`setdefault` inserts only when the key was
absent, and then no conflict is possible). -/
def tvBoundStep (v : V) (b? : Option Bias) (l : List (Nat × Bias)) :
    List (Nat × Bias) × Option Err :=
  match b? with
  | none => (l, none)
  | some b =>
    let r := setdefault v b l
    if b ≠ r.1 then (l, some .boundConflict) else (r.2, none)

/-- `TypedVariables._append`: add the variable if it is missing, otherwise
check that it matches the existing vartype/bounds.  On a re-add the bound
checks are skipped entirely for SPIN/BINARY; on a first add the given
bounds are stored unconditionally.  A `boundConflict` on the upper bound
leaves a lower bound fixed by the same call in place, exactly as the
source's sequential `setdefault` calls do. -/
def TypedVariables.append (tv : TypedVariables) (vt : Vartype) (v : V)
    (lb ub : Option Bias) : TypedVariables × Option Err :=
  if (alookup v tv.entries).isSome then
    if alookup v tv.entries ≠ some vt then (tv, some .typeConflict)
    else if vt = .BINARY ∨ vt = .SPIN then (tv, none)
    else
      let rl := tvBoundStep v lb tv.lowerBounds
      match rl.2 with
      | some e => (tv, some e)
      | none =>
        let tv1 : TypedVariables := { tv with lowerBounds := rl.1 }
        let ru := tvBoundStep v ub tv1.upperBounds
        match ru.2 with
        | some e => (tv1, some e)
        | none => ({ tv1 with upperBounds := ru.1 }, none)
  else
    ({ entries := tv.entries ++ [(v, vt)],
       lowerBounds := tv.lowerBounds ++
         (match lb with | some b => [(v, b)] | none => []),
       upperBounds := tv.upperBounds ++
         (match ub with | some b => [(v, b)] | none => []) },
     none)

/-- What one expression declares about one of its variables: the vartype
and, for general quadratic models, the bounds it carries for it. -/
structure VarDecl where
  vt : Vartype
  v : V
  lb : Option Bias
  ub : Option Bias
deriving DecidableEq

/-- A binary quadratic model: a single vartype, one linear entry per
variable in insertion order, quadratic entries, and an offset. -/
structure BQModel where
  vartype : Vartype
  linear : List (V × Bias)
  quadratic : List ((V × V) × Bias)
  offset : Bias
deriving DecidableEq

/-- Per-variable data of a general quadratic model: vartype, bounds, and
linear bias (a quadratic model always has concrete bounds per variable). -/
structure QVarInfo where
  vartype : Vartype
  lowerBound : Bias
  upperBound : Bias
  bias : Bias
deriving DecidableEq

/-- A general quadratic model: per-variable records in insertion order,
quadratic entries, and an offset. -/
structure QModel where
  vars : List (V × QVarInfo)
  quadratic : List ((V × V) × Bias)
  offset : Bias
deriving DecidableEq

/-- The two expression kinds a constrained model stores. -/
inductive Expr
  | bqm : BQModel → Expr
  | qm : QModel → Expr
deriving DecidableEq

/-- The declarations an expression makes about its variables, in variable
order: a binary quadratic model declares its single vartype and no bounds
(`_add_variables_from` passes no bounds for it); a quadratic model declares
each variable's own vartype and bounds. -/
def Expr.varDecls : Expr → List VarDecl
  | .bqm b => b.linear.map (fun p => ⟨b.vartype, p.1, none, none⟩)
  | .qm q => q.vars.map
      (fun p => ⟨p.2.vartype, p.1, some p.2.lowerBound, some p.2.upperBound⟩)

/-- The variables of an expression, in order. -/
def Expr.varList (e : Expr) : List V := e.varDecls.map VarDecl.v

/-- Number of linear entries (`len(model.linear)`; one per variable). -/
def Expr.numLinear : Expr → Nat
  | .bqm b => b.linear.length
  | .qm q => q.vars.length

/-- Number of quadratic entries (`len(model.quadratic)`). -/
def Expr.numQuadratic : Expr → Nat
  | .bqm b => b.quadratic.length
  | .qm q => q.quadratic.length

/-- The variable pairs carrying quadratic entries. -/
def Expr.quadPairs : Expr → List (V × V)
  | .bqm b => b.quadratic.map Prod.fst
  | .qm q => q.quadratic.map Prod.fst

/-- `degree(v)`: the number of quadratic entries touching `v`. -/
def Expr.degree (e : Expr) (v : V) : Nat :=
  (e.quadPairs.filter (fun p => decide (p.1 = v ∨ p.2 = v))).length

/-- The number of an expression's variables with at least one quadratic
interaction. -/
def Expr.numActiveQuadVars (e : Expr) : Nat :=
  (e.varList.filter (fun v => decide (0 < e.degree v))).length

/-- Comparison senses. -/
inductive Sense
  | le
  | ge
  | eq
deriving DecidableEq

/-- `Sense.value`: the two-character ASCII symbol written to the archive. -/
def Sense.symbol : Sense → String
  | .le => "<="
  | .ge => ">="
  | .eq => "=="

/-- `Sense(string)`: parse a sense symbol (raises in the source when the
string is not a sense value). -/
def senseOfString (t : String) : Option Sense :=
  if t = "<=" then some .le
  else if t = ">=" then some .ge
  else if t = "==" then some .eq
  else none

/-- A sense argument, which the source accepts either as the enum or as a
string to be parsed (`if isinstance(sense, str): sense = Sense(sense)`). -/
inductive SenseLike
  | enum : Sense → SenseLike
  | str : String → SenseLike

def resolveSense : SenseLike → Option Sense
  | .enum s => some s
  | .str t => senseOfString t

/-- A stored constraint: left-hand expression, sense, right-hand side. -/
structure Constraint where
  lhs : Expr
  sense : Sense
  rhs : Bias
deriving DecidableEq

/-- The constrained quadratic model: registry, ordered constraint map,
objective, discrete constraint labels (`self.discrete`) and the set of all
variables used in discrete groups (`self._discrete`). -/
structure CQM where
  vars : TypedVariables
  constraints : List (CLabel × Constraint)
  objective : Expr
  discrete : Finset CLabel
  discreteVars : Finset V
deriving DecidableEq

/-- A fresh model: empty registry and constraint store, the default
objective being an empty BINARY binary quadratic model. -/
def CQM.empty : CQM :=
  { vars := TypedVariables.empty
    constraints := []
    objective := .bqm ⟨.BINARY, [], [], 0⟩
    discrete := ∅
    discreteVars := ∅ }

/-- `label in self.constraints`. -/
def CQM.hasLabel (m : CQM) (l : CLabel) : Bool :=
  (alookup l m.constraints).isSome

/-- Registering a list of variable declarations one by one, stopping at
the first failure with the mutations made so far kept (the source's loop
raises mid-way). -/
def appendFromList (tv : TypedVariables) :
    List VarDecl → TypedVariables × Option Err
  | [] => (tv, none)
  | d :: rest =>
    let r := tv.append d.vt d.v d.lb d.ub
    match r.2 with
    | none => appendFromList r.1 rest
    | some e => (r.1, some e)

/-- `ConstrainedQuadraticModel._add_variables_from`: register every
variable of the expression, with bounds exactly when the expression is a
general quadratic model. -/
def CQM.addVariablesFrom (m : CQM) (e : Expr) : CQM × Option Err :=
  let r := appendFromList m.vars e.varDecls
  ({ m with vars := r.1 }, r.2)

/-- The tail of `add_constraint_from_model` after the label has been
settled: register the expression's variables, then store the constraint
under the label. -/
def CQM.commitConstraint (m : CQM) (e : Expr) (s : Sense) (rhs : Bias)
    (l : CLabel) : CQM × Except Err CLabel :=
  let r := m.addVariablesFrom e
  match r.2 with
  | some err => (r.1, .error err)
  | none =>
    ({ r.1 with constraints := r.1.constraints ++ [(l, ⟨e, s, rhs⟩)] },
     .ok l)

/-- `add_constraint_from_model`: resolve the sense, settle the label
(auto-generating a fresh one from the candidate stream `cands` when none
is supplied, retrying past collisions; failing with `duplicateLabel` when
a supplied label exists), then commit.  `copy` is omitted: expression
values are immutable here. -/
def CQM.addConstraintFromModel (m : CQM) (e : Expr) (sense : SenseLike)
    (rhs : Bias) (label : Option CLabel) (cands : List CLabel) :
    CQM × Except Err CLabel :=
  match resolveSense sense with
  | none => (m, .error .unexpectedSense)
  | some s =>
    match label with
    | none =>
      match cands.find? (fun c => !(m.hasLabel c)) with
      | none => (m, .error .labelSpaceExhausted)
      | some l => m.commitConstraint e s rhs l
    | some l =>
      if m.hasLabel l then (m, .error .duplicateLabel)
      else m.commitConstraint e s rhs l

/-- The validation loop at the top of `add_discrete`: each variable must
not be claimed by an earlier discrete group, and if already registered it
must be BINARY. -/
def CQM.discreteCheck (m : CQM) : List V → Option Err
  | [] => none
  | v :: rest =>
    if v ∈ m.discreteVars then some .discreteConflict
    else if (alookup v m.vars.entries).isSome ∧
        m.vars.vartypeOf v ≠ some .BINARY then some .typeConflict
    else m.discreteCheck rest

/-- `bqm.add_variable(v, bias)`: accumulate onto an existing linear entry
or append a new one. -/
def addLinear (l : List (V × Bias)) (v : V) (b : Bias) : List (V × Bias) :=
  match alookup v l with
  | some _ => l.map (fun p => if p.1 = v then (p.1, p.2 + b) else p)
  | none => l ++ [(v, b)]

/-- The one-hot binary quadratic model `add_discrete` builds: unit linear
bias on each given variable. -/
def oneHotBQM (vars : List V) : BQModel :=
  { vartype := .BINARY
    linear := vars.foldl (fun l v => addLinear l v 1) []
    quadratic := []
    offset := 0 }

/-- `add_discrete`: check the label, validate every variable, then add the
one-hot expression as an equality constraint against 1 and record the new
group and its claimed variables. -/
def CQM.addDiscrete (m : CQM) (vars : List V) (label : Option CLabel)
    (cands : List CLabel) : CQM × Except Err CLabel :=
  if label.elim false m.hasLabel then
    (m, .error .duplicateLabel)
  else
    match m.discreteCheck vars with
    | some e => (m, .error e)
    | none =>
      match m.addConstraintFromModel (.bqm (oneHotBQM vars)) (.enum .eq) 1
          label cands with
      | (m', .error e) => (m', .error e)
      | (m', .ok l) =>
        ({ m' with discrete := insert l m'.discrete
                   discreteVars := m'.discreteVars ∪ vars.toFinset },
         .ok l)

/-- `add_variable`: an existing label must keep its vartype (a matching
re-add is a no-op); a new label is appended with no bounds. -/
def CQM.addVariable (m : CQM) (v : V) (vt : Vartype) : CQM × Option Err :=
  if (alookup v m.vars.entries).isSome then
    if m.vars.vartypeOf v ≠ some vt then (m, some .typeConflict)
    else (m, none)
  else
    let r := m.vars.append vt v none none
    ({ m with vars := r.1 }, r.2)

/-- `set_objective`: register the expression's variables, then replace the
objective (no copy). -/
def CQM.setObjective (m : CQM) (e : Expr) : CQM × Option Err :=
  let r := m.addVariablesFrom e
  match r.2 with
  | some err => (r.1, some err)
  | none => ({ r.1 with objective := e }, none)

/-- The objective together with every constraint's left-hand side. -/
def CQM.exprs (m : CQM) : List Expr :=
  m.objective :: m.constraints.map (fun p => p.2.lhs)

/-- `num_biases`: linear plus quadratic entry counts of the objective,
plus the same sum over every constraint's left-hand side. -/
def CQM.numBiases (m : CQM) : Nat :=
  (m.objective.numLinear + m.objective.numQuadratic) +
    (m.constraints.map
      (fun p => p.2.lhs.numLinear + p.2.lhs.numQuadratic)).sum

/-- `num_quadratic_variables`: over all constraints, the number of
variables with nonzero degree in that constraint. -/
def CQM.numQuadraticVariables (m : CQM) : Nat :=
  (m.constraints.map (fun p => p.2.lhs.numActiveQuadVars)).sum

/-- The derived statistics written into the header (recomputed at write
time; the reader does not use them). -/
structure HeaderData where
  numVariables : Nat
  numConstraints : Nat
  numBiases : Nat
  numQuadraticVariables : Option Nat
deriving DecidableEq

/-- One `constraints/<label>/` directory of the archive: the left-hand
side blob, the right-hand side (an 8-byte float, exact here), the sense
symbol, and the discrete flag byte. -/
structure ConstraintEntry where
  lhs : Expr
  rhs : Bias
  sense : String
  discrete : Bool
deriving DecidableEq

/-- The embedded archive container: the objective entry plus one
constraint directory per label. -/
structure CQMArchive where
  objective : Expr
  constraintFiles : List (CLabel × ConstraintEntry)
deriving DecidableEq

/-- A serialized constrained model as seen after `read_header`: the
format version, the header statistics, and the embedded archive
(`none` models a container that cannot be opened). -/
structure CQMFileData where
  version : Nat × Nat
  header : HeaderData
  archive : Option CQMArchive
deriving DecidableEq

/-- The archive directory `to_file` writes for one stored constraint:
its label names the directory, holding the lhs blob, the rhs, the sense
symbol, and a flag byte telling whether the label is a discrete group. -/
def CQM.constraintEntry (m : CQM) (p : CLabel × Constraint) :
    CLabel × ConstraintEntry :=
  (p.1, ⟨p.2.lhs, p.2.rhs, p.2.sense.symbol, decide (p.1 ∈ m.discrete)⟩)

/-- The archive container `to_file` writes: the objective entry plus one
constraint directory per stored constraint. -/
def CQM.archOf (m : CQM) : CQMArchive :=
  { objective := m.objective
    constraintFiles := m.constraints.map m.constraintEntry }

/-- `to_file`: write format version 1.1, the recomputed header statistics,
the objective entry, and one directory per constraint holding its lhs,
rhs, sense symbol and discrete flag. -/
def CQM.toFile (m : CQM) : CQMFileData :=
  { version := (1, 1)
    header :=
      { numVariables := m.vars.entries.length
        numConstraints := m.constraints.length
        numBiases := m.numBiases
        numQuadraticVariables := some m.numQuadraticVariables }
    archive := some m.archOf }

/-- The decoding loop of `from_file`: for each constraint label found in
the archive, read its directory, add the constraint under the recovered
label, and mark the label discrete when the flag byte is set (the claimed
variables set `_discrete` is not touched). -/
def fromFileLoop (arch : CQMArchive) (m : CQM) :
    List CLabel → Except Err CQM
  | [] => .ok m
  | l :: rest =>
    match alookup l arch.constraintFiles with
    | none => .error .malformedArchive
    | some entry =>
      match m.addConstraintFromModel entry.lhs (.str entry.sense) entry.rhs
          (some l) [] with
      | (_, .error e) => .error e
      | (m', .ok lbl) =>
        fromFileLoop arch
          (if entry.discrete then { m' with discrete := insert lbl m'.discrete }
           else m') rest

/-- `from_file`: reject any major version at least 2 before touching the
archive (the source compares `header_info.version >= (2, 0)` on the
version pair, which holds exactly when the major version is at least 2);
otherwise open the archive, set the objective from its entry, and decode
the set of constraint directories. -/
def CQM.fromFile (f : CQMFileData) : Except Err CQM :=
  if 2 ≤ f.version.1 then .error .formatVersionUnsupported
  else
    match f.archive with
    | none => .error .malformedArchive
    | some arch =>
      let r := CQM.empty.setObjective arch.objective
      match r.2 with
      | some e => .error e
      | none =>
        fromFileLoop arch r.1 (arch.constraintFiles.map Prod.fst).dedup

/-! ### Association-list lemmas -/

theorem alookup_append_left {β : Type} {k : Nat} {l₁ : List (Nat × β)}
    {b : β} (l₂ : List (Nat × β)) (h : alookup k l₁ = some b) :
    alookup k (l₁ ++ l₂) = some b := by
  induction l₁ with
  | nil => simp [alookup] at h
  | cons hd tl ih =>
    obtain ⟨k', b'⟩ := hd
    by_cases hk : k = k' <;> simp_all [alookup]

theorem alookup_append_right {β : Type} {k : Nat} {l₁ : List (Nat × β)}
    (l₂ : List (Nat × β)) (h : alookup k l₁ = none) :
    alookup k (l₁ ++ l₂) = alookup k l₂ := by
  induction l₁ with
  | nil => rfl
  | cons hd tl ih =>
    obtain ⟨k', b'⟩ := hd
    by_cases hk : k = k' <;> simp_all [alookup]

theorem alookup_eq_none_iff {β : Type} {k : Nat} {l : List (Nat × β)} :
    alookup k l = none ↔ k ∉ l.map Prod.fst := by
  induction l with
  | nil => simp [alookup]
  | cons hd tl ih =>
    obtain ⟨k', b'⟩ := hd
    by_cases hk : k = k' <;> simp_all [alookup]

theorem mem_of_alookup_some {β : Type} {k : Nat} {l : List (Nat × β)}
    {b : β} (h : alookup k l = some b) : k ∈ l.map Prod.fst := by
  by_contra hk
  rw [← alookup_eq_none_iff] at hk
  rw [h] at hk
  cases hk

/-! ### Characterizations of `TypedVariables.append` -/

theorem tvAppend_readd_bs (tv : TypedVariables) {vt : Vartype} {v : V}
    (lb ub : Option Bias) (h : alookup v tv.entries = some vt)
    (hbs : vt = .BINARY ∨ vt = .SPIN) :
    tv.append vt v lb ub = (tv, none) := by
  simp [TypedVariables.append, h, hbs]

theorem tvAppend_readd_nonbs_noop (tv : TypedVariables) {vt : Vartype}
    {v : V} {lb ub : Option Bias}
    (h : alookup v tv.entries = some vt) (hbs : ¬(vt = .BINARY ∨ vt = .SPIN))
    (hlb : lb = none ∨ ∃ b, lb = some b ∧ alookup v tv.lowerBounds = some b)
    (hub : ub = none ∨ ∃ b, ub = some b ∧ alookup v tv.upperBounds = some b) :
    tv.append vt v lb ub = (tv, none) := by
  have hl : tvBoundStep v lb tv.lowerBounds = (tv.lowerBounds, none) := by
    rcases hlb with rfl | ⟨b, rfl, hb⟩
    · rfl
    · simp [tvBoundStep, setdefault, hb]
  have hu : tvBoundStep v ub tv.upperBounds = (tv.upperBounds, none) := by
    rcases hub with rfl | ⟨b, rfl, hb⟩
    · rfl
    · simp [tvBoundStep, setdefault, hb]
  simp [TypedVariables.append, h, hbs, hl, hu]

theorem tvAppend_new (tv : TypedVariables) (vt : Vartype) {v : V}
    (lb ub : Option Bias) (h : alookup v tv.entries = none) :
    tv.append vt v lb ub =
      ({ entries := tv.entries ++ [(v, vt)]
         lowerBounds := tv.lowerBounds ++
           (match lb with | some b => [(v, b)] | none => [])
         upperBounds := tv.upperBounds ++
           (match ub with | some b => [(v, b)] | none => []) }, none) := by
  simp [TypedVariables.append, h]

theorem tvAppend_type_conflict (tv : TypedVariables) {vt vt0 : Vartype}
    {v : V} (lb ub : Option Bias)
    (h : alookup v tv.entries = some vt0) (hne : vt ≠ vt0) :
    tv.append vt v lb ub = (tv, some .typeConflict) := by
  have : vt0 ≠ vt := fun hc => hne hc.symm
  simp [TypedVariables.append, h, this]

theorem tvAppend_lower_conflict (tv : TypedVariables) {vt : Vartype}
    {v : V} {b b0 : Bias} (ub : Option Bias)
    (h : alookup v tv.entries = some vt) (hbs : ¬(vt = .BINARY ∨ vt = .SPIN))
    (hb0 : alookup v tv.lowerBounds = some b0) (hne : b ≠ b0) :
    tv.append vt v (some b) ub = (tv, some .boundConflict) := by
  have hl : tvBoundStep v (some b) tv.lowerBounds =
      (tv.lowerBounds, some .boundConflict) := by
    simp [tvBoundStep, setdefault, hb0, hne]
  simp [TypedVariables.append, h, hbs, hl]

theorem tvAppend_upper_conflict (tv : TypedVariables) {vt : Vartype}
    {v : V} {lb : Option Bias} {c c0 : Bias}
    (h : alookup v tv.entries = some vt) (hbs : ¬(vt = .BINARY ∨ vt = .SPIN))
    (hlb : lb = none ∨ ∃ b, lb = some b ∧ alookup v tv.lowerBounds = some b)
    (hc0 : alookup v tv.upperBounds = some c0) (hne : c ≠ c0) :
    tv.append vt v lb (some c) = (tv, some .boundConflict) := by
  have hl : tvBoundStep v lb tv.lowerBounds = (tv.lowerBounds, none) := by
    rcases hlb with rfl | ⟨b, rfl, hb⟩
    · rfl
    · simp [tvBoundStep, setdefault, hb]
  have hu : tvBoundStep v (some c) tv.upperBounds =
      (tv.upperBounds, some .boundConflict) := by
    simp [tvBoundStep, setdefault, hc0, hne]
  simp [TypedVariables.append, h, hbs, hl, hu]

theorem tvAppend_fix_bounds (tv : TypedVariables) {vt : Vartype} {v : V}
    (b c : Bias)
    (h : alookup v tv.entries = some vt) (hbs : ¬(vt = .BINARY ∨ vt = .SPIN))
    (hlb : alookup v tv.lowerBounds = none)
    (hub : alookup v tv.upperBounds = none) :
    tv.append vt v (some b) (some c) =
      ({ tv with lowerBounds := tv.lowerBounds ++ [(v, b)]
                 upperBounds := tv.upperBounds ++ [(v, c)] }, none) := by
  have hl : tvBoundStep v (some b) tv.lowerBounds =
      (tv.lowerBounds ++ [(v, b)], none) := by
    simp [tvBoundStep, setdefault, hlb]
  have hu : tvBoundStep v (some c) tv.upperBounds =
      (tv.upperBounds ++ [(v, c)], none) := by
    simp [tvBoundStep, setdefault, hub]
  simp [TypedVariables.append, h, hbs, hl, hu]

/-! ### Rebuilding a registry from expression declarations

`from_file` rebuilds the registry by replaying `_add_variables_from` over
the decoded objective and constraints.  `Fragment M tv` says that a
partially rebuilt registry `tv` agrees with the original registry `M`;
`declMatches M d` says that one variable declaration of one stored
expression agrees with `M` (which holds in any model state the source can
reach, since `_append` validated exactly this on every add). -/

def Fragment (M tv : TypedVariables) : Prop :=
  (∀ v vt, alookup v tv.entries = some vt → alookup v M.entries = some vt) ∧
  (∀ v vt, alookup v tv.entries = some vt → ¬(vt = .BINARY ∨ vt = .SPIN) →
      alookup v tv.lowerBounds = alookup v M.lowerBounds ∧
      alookup v tv.upperBounds = alookup v M.upperBounds) ∧
  (∀ v, alookup v tv.entries = none →
      alookup v tv.lowerBounds = none ∧ alookup v tv.upperBounds = none)

def declMatches (M : TypedVariables) (d : VarDecl) : Prop :=
  alookup d.v M.entries = some d.vt ∧
  (¬(d.vt = .BINARY ∨ d.vt = .SPIN) →
    d.lb = alookup d.v M.lowerBounds ∧ d.ub = alookup d.v M.upperBounds)

theorem fragment_empty (M : TypedVariables) : Fragment M TypedVariables.empty := by
  refine ⟨?_, ?_, ?_⟩ <;> intro v <;> simp [TypedVariables.empty, alookup]

theorem alookup_optEntry_self {v : V} (o : Option Bias) :
    alookup v (match o with | some b => [(v, b)] | none => []) = o := by
  cases o <;> simp [alookup]

theorem alookup_optEntry_ne {k v : V} (h : k ≠ v) (o : Option Bias) :
    alookup k (match o with | some b => [(v, b)] | none => []) = none := by
  cases o <;> simp [alookup, h]

theorem tvAppend_fragment {M tv : TypedVariables} {d : VarDecl}
    (hf : Fragment M tv) (hd : declMatches M d) :
    ∃ tv', tv.append d.vt d.v d.lb d.ub = (tv', none) ∧ Fragment M tv' ∧
      (∀ w, alookup w tv'.entries =
        if w = d.v then some d.vt else alookup w tv.entries) := by
  obtain ⟨hf1, hf2, hf3⟩ := hf
  obtain ⟨hd1, hd2⟩ := hd
  cases h : alookup d.v tv.entries with
  | some vt0 =>
    have hvt : vt0 = d.vt := by
      have h2 := hf1 _ _ h
      rw [hd1] at h2
      exact (Option.some.inj h2).symm
    subst hvt
    have hpt : ∀ w, alookup w tv.entries =
        if w = d.v then some d.vt else alookup w tv.entries := by
      intro w
      by_cases hw : w = d.v
      · subst hw; simp [h]
      · simp [hw]
    by_cases hbs : d.vt = .BINARY ∨ d.vt = .SPIN
    · exact ⟨tv, tvAppend_readd_bs tv d.lb d.ub h hbs, ⟨hf1, hf2, hf3⟩, hpt⟩
    · have hb := hf2 _ _ h hbs
      have hdb := hd2 hbs
      have hlb : d.lb = none ∨
          ∃ b, d.lb = some b ∧ alookup d.v tv.lowerBounds = some b := by
        cases hx : alookup d.v M.lowerBounds with
        | none => left; rw [hdb.1, hx]
        | some b => right; exact ⟨b, by rw [hdb.1, hx], by rw [hb.1, hx]⟩
      have hub : d.ub = none ∨
          ∃ b, d.ub = some b ∧ alookup d.v tv.upperBounds = some b := by
        cases hx : alookup d.v M.upperBounds with
        | none => left; rw [hdb.2, hx]
        | some b => right; exact ⟨b, by rw [hdb.2, hx], by rw [hb.2, hx]⟩
      exact ⟨tv, tvAppend_readd_nonbs_noop tv h hbs hlb hub,
        ⟨hf1, hf2, hf3⟩, hpt⟩
  | none =>
    refine ⟨_, tvAppend_new tv d.vt d.lb d.ub h, ⟨?_, ?_, ?_⟩, ?_⟩
    · intro w vtw hw
      cases hwe : alookup w tv.entries with
      | some vtw' =>
        rw [alookup_append_left _ hwe] at hw
        cases hw
        exact hf1 _ _ hwe
      | none =>
        rw [alookup_append_right _ hwe] at hw
        by_cases hwd : w = d.v
        · subst hwd
          simp [alookup] at hw
          subst hw
          exact hd1
        · simp [alookup, hwd] at hw
    · intro w vtw hw hwbs
      cases hwe : alookup w tv.entries with
      | some vtw' =>
        rw [alookup_append_left _ hwe] at hw
        cases hw
        have hwd : w ≠ d.v := by
          intro hc; subst hc; rw [h] at hwe; cases hwe
        have hold := hf2 _ _ hwe hwbs
        constructor
        · cases hbl : alookup w tv.lowerBounds with
          | some bb => rw [alookup_append_left _ hbl, ← hbl, hold.1]
          | none =>
            rw [alookup_append_right _ hbl, alookup_optEntry_ne hwd,
              ← hbl, hold.1]
        · cases hbu : alookup w tv.upperBounds with
          | some bb => rw [alookup_append_left _ hbu, ← hbu, hold.2]
          | none =>
            rw [alookup_append_right _ hbu, alookup_optEntry_ne hwd,
              ← hbu, hold.2]
      | none =>
        rw [alookup_append_right _ hwe] at hw
        by_cases hwd : w = d.v
        · subst hwd
          simp [alookup] at hw
          subst hw
          have hnone := hf3 _ h
          have hdb := hd2 hwbs
          constructor
          · rw [alookup_append_right _ hnone.1, alookup_optEntry_self,
              hdb.1]
          · rw [alookup_append_right _ hnone.2, alookup_optEntry_self,
              hdb.2]
        · simp [alookup, hwd] at hw
    · intro w hw
      have hwd : w ≠ d.v := by
        intro hc; subst hc
        rw [alookup_append_right _ h] at hw
        simp [alookup] at hw
      cases hwe : alookup w tv.entries with
      | some vtw' => rw [alookup_append_left _ hwe] at hw; cases hw
      | none =>
        have hnone := hf3 _ hwe
        constructor
        · rw [alookup_append_right _ hnone.1, alookup_optEntry_ne hwd]
        · rw [alookup_append_right _ hnone.2, alookup_optEntry_ne hwd]
    · intro w
      by_cases hwd : w = d.v
      · subst hwd
        rw [alookup_append_right _ h]
        simp [alookup]
      · simp only [hwd, if_false]
        cases hwe : alookup w tv.entries with
        | some vtw' => rw [alookup_append_left _ hwe]
        | none =>
          rw [alookup_append_right _ hwe]
          simp [alookup, hwd]

theorem appendFromList_fragment {M : TypedVariables} {ds : List VarDecl} :
    ∀ {tv : TypedVariables}, Fragment M tv → (∀ d ∈ ds, declMatches M d) →
    ∃ tv', appendFromList tv ds = (tv', none) ∧ Fragment M tv' ∧
      (∀ w, alookup w tv'.entries =
        if w ∈ ds.map VarDecl.v then alookup w M.entries
        else alookup w tv.entries) := by
  induction ds with
  | nil =>
    intro tv hf _
    exact ⟨tv, rfl, hf, by intro w; simp⟩
  | cons d rest ih =>
    intro tv hf hds
    have hd := hds d (by simp)
    obtain ⟨tv1, hstep, hf1, hpt1⟩ := tvAppend_fragment hf hd
    obtain ⟨tvf, hrest, hff, hptf⟩ :=
      ih hf1 (fun d' hd' => hds d' (List.mem_cons_of_mem _ hd'))
    refine ⟨tvf, ?_, hff, ?_⟩
    · simp [appendFromList, hstep, hrest]
    · intro w
      rw [hptf w, hpt1 w]
      by_cases hwr : w ∈ rest.map VarDecl.v
      · simp [hwr]
      · by_cases hwd : w = d.v
        · subst hwd
          simp [hwr, hd.1]
        · simp [hwr, hwd]

theorem addVariablesFrom_fragment {M : TypedVariables} {m : CQM} {e : Expr}
    (hf : Fragment M m.vars) (hds : ∀ d ∈ e.varDecls, declMatches M d) :
    ∃ tv', m.addVariablesFrom e = ({ m with vars := tv' }, none) ∧
      Fragment M tv' ∧
      (∀ w, alookup w tv'.entries =
        if w ∈ e.varList then alookup w M.entries
        else alookup w m.vars.entries) := by
  obtain ⟨tv', hrun, hf', hpt⟩ := appendFromList_fragment hf hds
  exact ⟨tv', by simp [CQM.addVariablesFrom, hrun], hf', hpt⟩

/-! ### Model-state coherence and operation-level success lemmas -/

/-- Internal coherence of a model state, as the source's own validation
maintains it: constraint labels are distinct dictionary keys, every
discrete label belongs to a stored constraint, every variable declaration
made by the objective or a constraint agrees with the registry, and every
registered variable appears in the objective or in some constraint. -/
def Consistent (m : CQM) : Prop :=
  (m.constraints.map Prod.fst).Nodup ∧
  (∀ l ∈ m.discrete, l ∈ m.constraints.map Prod.fst) ∧
  (∀ e ∈ m.exprs, ∀ d ∈ e.varDecls, declMatches m.vars d) ∧
  (∀ v ∈ m.vars.entries.map Prod.fst, ∃ e ∈ m.exprs, v ∈ e.varList)

theorem senseOfString_symbol (s : Sense) : senseOfString s.symbol = some s := by
  cases s <;> rfl

theorem setObjective_fragment {M : TypedVariables} {m : CQM} {e : Expr}
    (hf : Fragment M m.vars) (hds : ∀ d ∈ e.varDecls, declMatches M d) :
    ∃ tv', m.setObjective e =
        ({ m with vars := tv', objective := e }, none) ∧
      Fragment M tv' ∧
      (∀ w, alookup w tv'.entries =
        if w ∈ e.varList then alookup w M.entries
        else alookup w m.vars.entries) := by
  obtain ⟨tv', hrun, hf', hpt⟩ := addVariablesFrom_fragment hf hds
  exact ⟨tv', by simp [CQM.setObjective, hrun], hf', hpt⟩

theorem commitConstraint_fragment {M : TypedVariables} {m : CQM} {e : Expr}
    (s : Sense) (rhs : Bias) (l : CLabel)
    (hf : Fragment M m.vars) (hds : ∀ d ∈ e.varDecls, declMatches M d) :
    ∃ tv', m.commitConstraint e s rhs l =
        ({ m with vars := tv'
                  constraints := m.constraints ++ [(l, ⟨e, s, rhs⟩)] },
         .ok l) ∧
      Fragment M tv' ∧
      (∀ w, alookup w tv'.entries =
        if w ∈ e.varList then alookup w M.entries
        else alookup w m.vars.entries) := by
  obtain ⟨tv', hrun, hf', hpt⟩ := addVariablesFrom_fragment hf hds
  exact ⟨tv', by simp [CQM.commitConstraint, hrun], hf', hpt⟩

theorem addCFM_fragment {M : TypedVariables} {m : CQM} {e : Expr}
    {sl : SenseLike} {s : Sense} (rhs : Bias) {l : CLabel}
    (cands : List CLabel)
    (hres : resolveSense sl = some s)
    (hnl : alookup l m.constraints = none)
    (hf : Fragment M m.vars) (hds : ∀ d ∈ e.varDecls, declMatches M d) :
    ∃ tv', m.addConstraintFromModel e sl rhs (some l) cands =
        ({ m with vars := tv'
                  constraints := m.constraints ++ [(l, ⟨e, s, rhs⟩)] },
         .ok l) ∧
      Fragment M tv' ∧
      (∀ w, alookup w tv'.entries =
        if w ∈ e.varList then alookup w M.entries
        else alookup w m.vars.entries) := by
  obtain ⟨tv', hrun, hf', hpt⟩ := commitConstraint_fragment s rhs l hf hds
  refine ⟨tv', ?_, hf', hpt⟩
  have hhl : m.hasLabel l = false := by
    simp [CQM.hasLabel, hnl]
  simp [CQM.addConstraintFromModel, hres, hhl, hrun]

theorem constraintEntry_keys (m : CQM) (lst : List (CLabel × Constraint)) :
    (lst.map m.constraintEntry).map Prod.fst = lst.map Prod.fst := by
  induction lst <;> simp_all [CQM.constraintEntry]

theorem fromFileLoop_rebuild (m : CQM) (hC : Consistent m) :
    ∀ (todo done : List (CLabel × Constraint)) (mi : CQM),
      m.constraints = done ++ todo →
      mi.objective = m.objective →
      mi.constraints = done →
      mi.discrete = m.discrete.filter (fun l => l ∈ done.map Prod.fst) →
      mi.discreteVars = ∅ →
      Fragment m.vars mi.vars →
      (∀ w, alookup w mi.vars.entries =
        if w ∈ m.objective.varList ∨ ∃ p ∈ done, w ∈ p.2.lhs.varList
        then alookup w m.vars.entries else none) →
      ∃ mf, fromFileLoop m.archOf mi (todo.map Prod.fst) = .ok mf ∧
        mf.objective = m.objective ∧
        mf.constraints = m.constraints ∧
        mf.discrete = m.discrete ∧
        mf.discreteVars = ∅ ∧
        (∀ w, alookup w mf.vars.entries =
          if w ∈ m.objective.varList ∨ ∃ p ∈ m.constraints, w ∈ p.2.lhs.varList
          then alookup w m.vars.entries else none) ∧
        Fragment m.vars mf.vars := by
  intro todo
  induction todo with
  | nil =>
    intro done mi hsplit hobj hcons hdisc hdv hfrag hpt
    rw [List.append_nil] at hsplit
    subst hsplit
    refine ⟨mi, rfl, hobj, hcons, ?_, hdv, ?_, hfrag⟩
    · rw [hdisc]
      exact Finset.filter_true_of_mem (fun x hx => hC.2.1 x hx)
    · intro w
      rw [hpt w]
  | cons hd rest ih =>
    obtain ⟨l, c⟩ := hd
    intro done mi hsplit hobj hcons hdisc hdv hfrag hpt
    have hkeys : ((done.map Prod.fst) ++ l :: rest.map Prod.fst).Nodup := by
      have h1 := hC.1
      rw [hsplit] at h1
      simpa using h1
    obtain ⟨hnd1, hnd2, hdisj⟩ := List.nodup_append.mp hkeys
    have hl_done : l ∉ done.map Prod.fst := by
      intro hmem
      exact hdisj hmem (List.mem_cons_self _ _)
    have harch : alookup l m.archOf.constraintFiles =
        some ⟨c.lhs, c.rhs, c.sense.symbol, decide (l ∈ m.discrete)⟩ := by
      show alookup l (m.constraints.map m.constraintEntry) = _
      rw [hsplit, List.map_append, alookup_append_right]
      · simp [CQM.constraintEntry, alookup]
      · rw [alookup_eq_none_iff, constraintEntry_keys]
        exact hl_done
    have hnl : alookup l mi.constraints = none := by
      rw [hcons, alookup_eq_none_iff]
      exact hl_done
    have hmemc : (l, c) ∈ m.constraints := by
      rw [hsplit]
      exact List.mem_append_right _ (List.mem_cons_self _ _)
    have hlhs : c.lhs ∈ m.exprs :=
      List.mem_cons_of_mem _ (List.mem_map_of_mem (fun p => p.2.lhs) hmemc)
    have hds : ∀ d ∈ c.lhs.varDecls, declMatches m.vars d :=
      fun d hd => hC.2.2.1 c.lhs hlhs d hd
    have hres : resolveSense (.str c.sense.symbol) = some c.sense := by
      simp [resolveSense, senseOfString_symbol]
    obtain ⟨tv', hrun, hf', hpt'⟩ := addCFM_fragment c.rhs [] hres hnl hfrag hds
    have hceta : (⟨c.lhs, c.sense, c.rhs⟩ : Constraint) = c := rfl
    rw [hceta] at hrun
    -- the state after the add, before the discrete flag is applied
    have hstep : ∀ ls, fromFileLoop m.archOf mi (l :: ls) =
        fromFileLoop m.archOf
          (if decide (l ∈ m.discrete) then
            { mi with vars := tv'
                      constraints := mi.constraints ++ [(l, c)]
                      discrete := insert l mi.discrete }
           else
            { mi with vars := tv'
                      constraints := mi.constraints ++ [(l, c)] }) ls := by
      intro ls
      by_cases hld : l ∈ m.discrete <;>
        simp only [fromFileLoop, harch, hrun, hld, decide_true_eq_true,
          decide_false_eq_false, if_true, if_false, decide_True, decide_False]
    set m1 : CQM :=
      (if decide (l ∈ m.discrete) then
        { mi with vars := tv'
                  constraints := mi.constraints ++ [(l, c)]
                  discrete := insert l mi.discrete }
       else
        { mi with vars := tv'
                  constraints := mi.constraints ++ [(l, c)] }) with hm1
    have hm1vars : m1.vars = tv' := by
      rw [hm1]
      by_cases hld : l ∈ m.discrete <;> simp [hld]
    have hm1obj : m1.objective = m.objective := by
      rw [hm1]
      by_cases hld : l ∈ m.discrete <;> simp [hld, hobj]
    have hm1cons : m1.constraints = done ++ [(l, c)] := by
      rw [hm1]
      by_cases hld : l ∈ m.discrete <;> simp [hld, hcons]
    have hm1dv : m1.discreteVars = ∅ := by
      rw [hm1]
      by_cases hld : l ∈ m.discrete <;> simp [hld, hdv]
    have hm1disc : m1.discrete =
        m.discrete.filter (fun x => x ∈ (done ++ [(l, c)]).map Prod.fst) := by
      rw [hm1]
      by_cases hld : l ∈ m.discrete
      · simp only [hld, decide_True, if_true]
        ext x
        by_cases hxl : x = l <;>
          simp [hdisc, Finset.mem_insert, Finset.mem_filter,
            List.mem_append, hxl, hld]
      · simp only [hld, decide_False, if_false]
        ext x
        by_cases hxl : x = l <;>
          simp [hdisc, Finset.mem_filter, List.mem_append, hxl, hld]
    have hm1pt : ∀ w, alookup w m1.vars.entries =
        if w ∈ m.objective.varList ∨ ∃ p ∈ done ++ [(l, c)], w ∈ p.2.lhs.varList
        then alookup w m.vars.entries else none := by
      intro w
      rw [hm1vars, hpt' w]
      by_cases hwc : w ∈ c.lhs.varList
      · rw [if_pos hwc, if_pos]
        exact Or.inr ⟨(l, c), by simp, hwc⟩
      · rw [if_neg hwc, hpt w]
        have hiff : (w ∈ m.objective.varList ∨ ∃ p ∈ done, w ∈ p.2.lhs.varList)
            ↔ (w ∈ m.objective.varList ∨
                ∃ p ∈ done ++ [(l, c)], w ∈ p.2.lhs.varList) := by
          constructor
          · rintro (h | ⟨p, hp, hw⟩)
            · exact Or.inl h
            · exact Or.inr ⟨p, List.mem_append_left _ hp, hw⟩
          · rintro (h | ⟨p, hp, hw⟩)
            · exact Or.inl h
            · rcases List.mem_append.mp hp with hp | hp
              · exact Or.inr ⟨p, hp, hw⟩
              · rw [List.mem_singleton] at hp
                subst hp
                exact absurd hw hwc
        rw [if_congr hiff rfl rfl]
    have hm1frag : Fragment m.vars m1.vars := by
      rw [hm1vars]
      exact hf'
    have hsplit' : m.constraints = (done ++ [(l, c)]) ++ rest := by
      rw [hsplit]
      simp
    obtain ⟨mf, hloop, hrest⟩ :=
      ih (done ++ [(l, c)]) m1 hsplit' hm1obj hm1cons hm1disc hm1dv
        hm1frag hm1pt
    refine ⟨mf, ?_, hrest⟩
    rw [List.map_cons, hstep]
    exact hloop

/-- Claim C1 (amended): for every model whose bookkeeping is internally
consistent — distinct constraint labels, discrete labels among the
constraint labels, every expression variable registered with a matching
vartype (and matching bounds for non-SPIN/BINARY variables), and every
registered variable appearing in the objective or in some constraint —
decoding the encoded file yields a model with the same objective, the
same constraints (same label, lhs biases, sense and rhs, even in the same
order), the same discrete-group labels, the same registered variables
with the same vartypes, and the same bounds for all non-SPIN/BINARY
(INTEGER/REAL/DISCRETE-typed) variables.  (As stated the claim is false:
a registered variable that appears in no stored expression is dropped,
see the counterexample; and bound bookkeeping for SPIN/BINARY variables
need not survive because such bounds are stored on a first add but never
re-validated.) -/
theorem claim1_amended (m : CQM) (hC : Consistent m) :
    ∃ m', CQM.fromFile m.toFile = .ok m' ∧
      m'.objective = m.objective ∧
      m'.constraints = m.constraints ∧
      m'.discrete = m.discrete ∧
      (∀ v, alookup v m'.vars.entries = alookup v m.vars.entries) ∧
      (∀ v vt, alookup v m.vars.entries = some vt →
        vt ≠ .BINARY → vt ≠ .SPIN →
        alookup v m'.vars.lowerBounds = alookup v m.vars.lowerBounds ∧
        alookup v m'.vars.upperBounds = alookup v m.vars.upperBounds) := by
  have hfe : Fragment m.vars CQM.empty.vars := fragment_empty m.vars
  have hdso : ∀ d ∈ m.objective.varDecls, declMatches m.vars d :=
    fun d hd => hC.2.2.1 m.objective (List.mem_cons_self _ _) d hd
  obtain ⟨tv0, hrun0, hf0, hpt0⟩ := setObjective_fragment hfe hdso
  have hlabels : (m.archOf.constraintFiles.map Prod.fst).dedup =
      m.constraints.map Prod.fst := by
    show ((m.constraints.map m.constraintEntry).map Prod.fst).dedup = _
    rw [constraintEntry_keys, List.dedup_eq_self.mpr hC.1]
  have hm0pt : ∀ w, alookup w tv0.entries =
      if w ∈ m.objective.varList ∨
          ∃ p ∈ ([] : List (CLabel × Constraint)), w ∈ p.2.lhs.varList
      then alookup w m.vars.entries else none := by
    intro w
    rw [hpt0 w]
    have hiff : (w ∈ m.objective.varList) ↔
        (w ∈ m.objective.varList ∨
          ∃ p ∈ ([] : List (CLabel × Constraint)), w ∈ p.2.lhs.varList) := by
      simp
    have hemp : alookup w CQM.empty.vars.entries = (none : Option Vartype) := rfl
    rw [hemp, if_congr hiff rfl rfl]
  obtain ⟨mf, hloop, hobjf, hconsf, hdiscf, hdvf, hptf, hfragf⟩ :=
    fromFileLoop_rebuild m hC m.constraints []
      { CQM.empty with vars := tv0, objective := m.objective }
      (by simp) rfl rfl (by ext x; simp [CQM.empty]) rfl hf0 hm0pt
  have hdecode : CQM.fromFile m.toFile = .ok mf := by
    have : CQM.fromFile m.toFile =
        fromFileLoop m.archOf
          { CQM.empty with vars := tv0, objective := m.objective }
          ((m.archOf.constraintFiles.map Prod.fst).dedup) := by
      have harchobj : m.archOf.objective = m.objective := rfl
      simp [CQM.fromFile, CQM.toFile, harchobj, hrun0]
    rw [this, hlabels]
    exact hloop
  have hvars : ∀ v, alookup v mf.vars.entries = alookup v m.vars.entries := by
    intro v
    rw [hptf v]
    by_cases hcond : (v ∈ m.objective.varList ∨
        ∃ p ∈ m.constraints, v ∈ p.2.lhs.varList)
    · rw [if_pos hcond]
    · rw [if_neg hcond]
      cases hv : alookup v m.vars.entries with
      | none => rfl
      | some vt =>
        exfalso
        obtain ⟨e, he, hve⟩ := hC.2.2.2 v (mem_of_alookup_some hv)
        rcases List.mem_cons.mp he with rfl | he'
        · exact hcond (Or.inl hve)
        · obtain ⟨p, hp, rfl⟩ := List.mem_map.mp he'
          exact hcond (Or.inr ⟨p, hp, hve⟩)
  refine ⟨mf, hdecode, hobjf, hconsf, hdiscf, hvars, ?_⟩
  intro v vt hv h1 h2
  have hvf : alookup v mf.vars.entries = some vt := by
    rw [hvars v, hv]
  exact hfragf.2.1 v vt hvf (by rintro (h | h) <;> [exact h1 h; exact h2 h])

/-! ### Success and error characterizations of the registry and store -/

theorem tvBoundStep_err (v : V) (b? : Option Bias) (l : List (Nat × Bias)) :
    (tvBoundStep v b? l).2 = none ∨
    (tvBoundStep v b? l).2 = some .boundConflict := by
  unfold tvBoundStep
  cases b? with
  | none => left; rfl
  | some b =>
    dsimp only
    split
    · right; rfl
    · left; rfl

theorem tvAppend_err_cases (tv : TypedVariables) (vt : Vartype) (v : V)
    (lb ub : Option Bias) :
    (tv.append vt v lb ub).2 = none ∨
    (tv.append vt v lb ub).2 = some .typeConflict ∨
    (tv.append vt v lb ub).2 = some .boundConflict := by
  unfold TypedVariables.append
  split
  · split
    · right; left; rfl
    · split
      · left; rfl
      · dsimp only
        split
        · rename_i e heq
          rcases tvBoundStep_err v lb tv.lowerBounds with h | h <;>
            rw [heq] at h
          · cases h
          · right; right
            rw [Option.some.inj h]
        · split
          · rename_i e heq
            rcases tvBoundStep_err v ub _ with h | h <;> rw [heq] at h
            · cases h
            · right; right
              rw [Option.some.inj h]
          · left; rfl
  · left; rfl

theorem tvAppend_ok_lookup {tv tv' : TypedVariables} {vt : Vartype} {v : V}
    {lb ub : Option Bias} (h : tv.append vt v lb ub = (tv', none)) :
    alookup v tv'.entries = some vt := by
  unfold TypedVariables.append at h
  by_cases hv : (alookup v tv.entries).isSome
  · rw [if_pos hv] at h
    obtain ⟨vt0, hvt0⟩ := Option.isSome_iff_exists.mp hv
    by_cases hne : alookup v tv.entries ≠ some vt
    · rw [if_pos hne] at h
      cases h
    · push_neg at hne
      rw [if_neg (by rw [hne]; simp)] at h
      split at h
      · cases h
        exact hne
      · dsimp only at h
        split at h
        · cases h
        · split at h
          · cases h
          · cases h
            exact hne
  · rw [if_neg hv] at h
    cases h
    rw [alookup_append_right _ (Option.not_isSome_iff_eq_none.mp hv)]
    simp [alookup]

theorem appendFromList_err (ds : List VarDecl) :
    ∀ tv : TypedVariables,
    (appendFromList tv ds).2 = none ∨
    (appendFromList tv ds).2 = some .typeConflict ∨
    (appendFromList tv ds).2 = some .boundConflict := by
  induction ds with
  | nil => intro tv; left; rfl
  | cons d rest ih =>
    intro tv
    unfold appendFromList
    dsimp only
    split
    · exact ih _
    · rename_i e heq
      rcases tvAppend_err_cases tv d.vt d.v d.lb d.ub with h | h | h <;>
        rw [heq] at h
      · cases h
      · right; left
        rw [Option.some.inj h]
      · right; right
        rw [Option.some.inj h]

/-! ### Claim theorems about the variable registry -/

/-- Claim C9: `num_biases()` returns exactly the sum, over the objective
and every constraint's left-hand-side expression, of that expression's
linear-term count plus its quadratic-term count. -/
theorem claim9_num_biases (m : CQM) :
    m.numBiases = (m.exprs.map (fun e => e.numLinear + e.numQuadratic)).sum := by
  rw [CQM.numBiases, CQM.exprs, List.map_cons, List.sum_cons, List.map_map]
  rfl

/-- Claim C4 counterexample: registering a fresh label with vartype BINARY
and explicit bounds succeeds without a conflict, yet the registry records
both bounds for that label — the bounds are stored, not ignored, on a
first add. -/
theorem claim4_counterexample :
    (TypedVariables.empty.append .BINARY 0 (some 5) (some 7)).2 = none ∧
    alookup 0 (TypedVariables.empty.append .BINARY 0 (some 5) (some 7)).1.lowerBounds
      = some 5 ∧
    alookup 0 (TypedVariables.empty.append .BINARY 0 (some 5) (some 7)).1.upperBounds
      = some 7 := by
  decide

/-- Claim C4 (amended): bounds supplied on a RE-add of an existing
SPIN/BINARY label are silently ignored — the call succeeds whatever the
bounds are and changes nothing; but bounds supplied on the FIRST add of a
label are stored in the registry's bound maps regardless of vartype
(though never validated afterwards for SPIN/BINARY). -/
theorem claim4_amended :
    (∀ (tv : TypedVariables) (vt : Vartype) (v : V) (lb ub : Option Bias),
      alookup v tv.entries = some vt → (vt = .BINARY ∨ vt = .SPIN) →
      tv.append vt v lb ub = (tv, none)) ∧
    (∀ (tv : TypedVariables) (vt : Vartype) (v : V) (lb ub : Option Bias),
      alookup v tv.entries = none →
      alookup v tv.lowerBounds = none → alookup v tv.upperBounds = none →
      (tv.append vt v lb ub).2 = none ∧
      alookup v (tv.append vt v lb ub).1.lowerBounds = lb ∧
      alookup v (tv.append vt v lb ub).1.upperBounds = ub) := by
  constructor
  · intro tv vt v lb ub h hbs
    exact tvAppend_readd_bs tv lb ub h hbs
  · intro tv vt v lb ub h hl hu
    rw [tvAppend_new tv vt lb ub h]
    refine ⟨rfl, ?_, ?_⟩
    · rw [alookup_append_right _ hl, alookup_optEntry_self]
    · rw [alookup_append_right _ hu, alookup_optEntry_self]

/-- Claim C4 witness: a re-add of a BINARY label with fresh bound values
is accepted unchanged, and a first add of a SPIN label stores the supplied
bounds. -/
theorem claim4_amended_witness :
    ((⟨[(0, .BINARY)], [], []⟩ : TypedVariables).append .BINARY 0 (some 6) (some 8)
      = (⟨[(0, .BINARY)], [], []⟩, none)) ∧
    ((TypedVariables.empty.append .SPIN 1 (some 2) (some 3)).2 = none ∧
      alookup 1 (TypedVariables.empty.append .SPIN 1 (some 2) (some 3)).1.lowerBounds
        = some 2 ∧
      alookup 1 (TypedVariables.empty.append .SPIN 1 (some 2) (some 3)).1.upperBounds
        = some 3) :=
  ⟨claim4_amended.1 _ _ 0 _ _ (by decide) (by decide),
   claim4_amended.2 _ .SPIN 1 _ _ (by decide) (by decide) (by decide)⟩

/-- Claim C5: registering the same `(label, vartype)` pair twice — through
the registry's `_append` with no bounds, or through the facade's
`add_variable` — leaves the state unchanged the second time (a no-op),
and registering an existing label with a different vartype always fails
with the vartype-conflict error and no state change, regardless of what
was registered before. -/
theorem claim5_idempotent_reregistration :
    (∀ (tv tv₁ : TypedVariables) (v : V) (vt : Vartype),
      tv.append vt v none none = (tv₁, none) →
      tv₁.append vt v none none = (tv₁, none)) ∧
    (∀ (m m₁ : CQM) (v : V) (vt : Vartype),
      m.addVariable v vt = (m₁, none) →
      m₁.addVariable v vt = (m₁, none)) ∧
    (∀ (tv : TypedVariables) (v : V) (vt vt' : Vartype) (lb ub : Option Bias),
      alookup v tv.entries = some vt → vt' ≠ vt →
      tv.append vt' v lb ub = (tv, some .typeConflict)) ∧
    (∀ (m : CQM) (v : V) (vt vt' : Vartype),
      alookup v m.vars.entries = some vt → vt' ≠ vt →
      m.addVariable v vt' = (m, some .typeConflict)) := by
  have hsecond : ∀ (tv₁ : TypedVariables) (v : V) (vt : Vartype),
      alookup v tv₁.entries = some vt →
      tv₁.append vt v none none = (tv₁, none) := by
    intro tv₁ v vt hl
    by_cases hbs : vt = .BINARY ∨ vt = .SPIN
    · exact tvAppend_readd_bs tv₁ none none hl hbs
    · exact tvAppend_readd_nonbs_noop tv₁ hl hbs (Or.inl rfl) (Or.inl rfl)
  refine ⟨?_, ?_, ?_, ?_⟩
  · intro tv tv₁ v vt h
    exact hsecond tv₁ v vt (tvAppend_ok_lookup h)
  · intro m m₁ v vt h
    have hl : alookup v m₁.vars.entries = some vt := by
      unfold CQM.addVariable at h
      by_cases hv : (alookup v m.vars.entries).isSome
      · rw [if_pos hv] at h
        obtain ⟨vt0, hvt0⟩ := Option.isSome_iff_exists.mp hv
        by_cases hne : m.vars.vartypeOf v ≠ some vt
        · rw [if_pos hne] at h
          cases h
        · push_neg at hne
          rw [if_neg (by rw [hne]; simp)] at h
          cases h
          exact hne
      · rw [if_neg hv] at h
        have hnone := Option.not_isSome_iff_eq_none.mp hv
        simp only [tvAppend_new m.vars vt none none hnone] at h
        injection h with h1 h2
        rw [← h1]
        show alookup v (m.vars.entries ++ [(v, vt)]) = some vt
        rw [alookup_append_right _ hnone]
        simp [alookup]
    unfold CQM.addVariable
    rw [if_pos (by rw [hl]; rfl), if_neg (by rw [TypedVariables.vartypeOf, hl]; simp)]
  · intro tv v vt vt' lb ub h hne
    exact tvAppend_type_conflict tv lb ub h hne
  · intro m v vt vt' h hne
    unfold CQM.addVariable
    rw [if_pos (by rw [h]; rfl), if_pos]
    rw [TypedVariables.vartypeOf, h]
    simp
    exact fun hc => hne hc.symm

/-- Claim C5 witness: concrete idempotent re-adds and a concrete vartype
conflict. -/
theorem claim5_witness :
    ((⟨[(0, .INTEGER)], [], []⟩ : TypedVariables).append .INTEGER 0 none none
      = (⟨[(0, .INTEGER)], [], []⟩, none)) ∧
    ((⟨[(0, .INTEGER)], [], []⟩ : TypedVariables).append .BINARY 0 none none
      = (⟨[(0, .INTEGER)], [], []⟩, some .typeConflict)) :=
  ⟨claim5_idempotent_reregistration.1 TypedVariables.empty _ 0 .INTEGER (by decide),
   claim5_idempotent_reregistration.2.2.1 _ 0 .INTEGER .BINARY none none
     (by decide) (by decide)⟩

/-- Claim C6: for an already-registered INTEGER or REAL label, a re-add
supplying a lower bound different from the one already fixed fails with
the bound-conflict error and changes nothing; likewise for the upper
bound when the lower bound is compatible; a re-add supplying exactly the
already-fixed bounds is a no-op; and a re-add supplying bounds where none
were fixed before succeeds and fixes exactly those bounds. -/
theorem claim6_bound_semantics :
    (∀ (tv : TypedVariables) (v : V) (vt : Vartype) (b b0 : Bias)
        (ub : Option Bias),
      (vt = .INTEGER ∨ vt = .REAL) →
      alookup v tv.entries = some vt →
      alookup v tv.lowerBounds = some b0 → b ≠ b0 →
      tv.append vt v (some b) ub = (tv, some .boundConflict)) ∧
    (∀ (tv : TypedVariables) (v : V) (vt : Vartype) (c c0 : Bias)
        (lb : Option Bias),
      (vt = .INTEGER ∨ vt = .REAL) →
      alookup v tv.entries = some vt →
      (lb = none ∨ ∃ b, lb = some b ∧ alookup v tv.lowerBounds = some b) →
      alookup v tv.upperBounds = some c0 → c ≠ c0 →
      tv.append vt v lb (some c) = (tv, some .boundConflict)) ∧
    (∀ (tv : TypedVariables) (v : V) (vt : Vartype) (b c : Bias),
      (vt = .INTEGER ∨ vt = .REAL) →
      alookup v tv.entries = some vt →
      alookup v tv.lowerBounds = some b → alookup v tv.upperBounds = some c →
      tv.append vt v (some b) (some c) = (tv, none)) ∧
    (∀ (tv : TypedVariables) (v : V) (vt : Vartype) (b c : Bias),
      (vt = .INTEGER ∨ vt = .REAL) →
      alookup v tv.entries = some vt →
      alookup v tv.lowerBounds = none → alookup v tv.upperBounds = none →
      tv.append vt v (some b) (some c) =
        ({ tv with lowerBounds := tv.lowerBounds ++ [(v, b)]
                   upperBounds := tv.upperBounds ++ [(v, c)] }, none)) := by
  have hbs : ∀ vt : Vartype, (vt = .INTEGER ∨ vt = .REAL) →
      ¬(vt = .BINARY ∨ vt = .SPIN) := by
    rintro vt (rfl | rfl) <;> simp
  refine ⟨?_, ?_, ?_, ?_⟩
  · intro tv v vt b b0 ub hir h hb0 hne
    exact tvAppend_lower_conflict tv ub h (hbs vt hir) hb0 hne
  · intro tv v vt c c0 lb hir h hlb hc0 hne
    exact tvAppend_upper_conflict tv h (hbs vt hir) hlb hc0 hne
  · intro tv v vt b c hir h hb hc
    exact tvAppend_readd_nonbs_noop tv h (hbs vt hir)
      (Or.inr ⟨b, rfl, hb⟩) (Or.inr ⟨c, rfl, hc⟩)
  · intro tv v vt b c hir h hb hc
    exact tvAppend_fix_bounds tv b c h (hbs vt hir) hb hc

/-- Claim C6 witness: concrete conflict, no-op, and bound-fixing re-adds
on an INTEGER label. -/
theorem claim6_witness :
    ((⟨[(4, .INTEGER)], [(4, 1)], [(4, 9)]⟩ : TypedVariables).append
        .INTEGER 4 (some 2) none
      = (⟨[(4, .INTEGER)], [(4, 1)], [(4, 9)]⟩, some .boundConflict)) ∧
    ((⟨[(4, .INTEGER)], [(4, 1)], [(4, 9)]⟩ : TypedVariables).append
        .INTEGER 4 (some 1) (some 9)
      = (⟨[(4, .INTEGER)], [(4, 1)], [(4, 9)]⟩, none)) ∧
    ((⟨[(4, .INTEGER)], [], []⟩ : TypedVariables).append
        .INTEGER 4 (some 1) (some 9)
      = (⟨[(4, .INTEGER)], [(4, 1)], [(4, 9)]⟩, none)) :=
  ⟨claim6_bound_semantics.1 _ 4 .INTEGER 2 1 none (Or.inl rfl) (by decide)
      (by decide) (by decide),
   claim6_bound_semantics.2.2.1 _ 4 .INTEGER 1 9 (Or.inl rfl) (by decide)
      (by decide) (by decide),
   claim6_bound_semantics.2.2.2 _ 4 .INTEGER 1 9 (Or.inl rfl) (by decide)
      (by decide) (by decide)⟩

/-! ### The version gate of `from_file` -/

theorem addCFM_err_ne_fvu (m : CQM) (e : Expr) (sl : SenseLike)
    (rhs : Bias) (label : Option CLabel) (cands : List CLabel) :
    (m.addConstraintFromModel e sl rhs label cands).2 ≠
      .error .formatVersionUnsupported := by
  unfold CQM.addConstraintFromModel
  split
  · simp
  · split
    · split
      · simp
      · unfold CQM.commitConstraint
        dsimp only
        split
        · rename_i err heq
          intro hc
          injection hc with hc
          rw [hc] at heq
          have := appendFromList_err e.varDecls m.vars
          unfold CQM.addVariablesFrom at heq
          dsimp only at heq
          rcases this with h | h | h <;> rw [heq] at h <;> cases h
        · simp
    · split
      · simp
      · unfold CQM.commitConstraint
        dsimp only
        split
        · rename_i err heq
          intro hc
          injection hc with hc
          rw [hc] at heq
          have := appendFromList_err e.varDecls m.vars
          unfold CQM.addVariablesFrom at heq
          dsimp only at heq
          rcases this with h | h | h <;> rw [heq] at h <;> cases h
        · simp

theorem fromFileLoop_ne_fvu (arch : CQMArchive) :
    ∀ (ls : List CLabel) (mi : CQM),
    fromFileLoop arch mi ls ≠ .error .formatVersionUnsupported := by
  intro ls
  induction ls with
  | nil => intro mi; simp [fromFileLoop]
  | cons l rest ih =>
    intro mi
    unfold fromFileLoop
    split
    · simp
    · rename_i entry heqA
      split
      · rename_i mx ex heq
        intro hc
        injection hc with hc
        have h2 := addCFM_err_ne_fvu mi entry.lhs (.str entry.sense)
          entry.rhs (some l) []
        rw [heq, hc] at h2
        exact h2 rfl
      · exact ih _

/-- Claim C7: `from_file` rejects every input whose header declares a
format major version of 2 or greater with the unsupported-version error,
even when the embedded archive cannot be opened at all (the gate fires
before the archive is touched); and inputs with major version 1 pass the
gate — whatever else happens, the result is never the unsupported-version
error. -/
theorem claim7_version_gate :
    (∀ f : CQMFileData, 2 ≤ f.version.1 →
      CQM.fromFile f = .error .formatVersionUnsupported) ∧
    (∀ f : CQMFileData, f.version.1 = 1 →
      CQM.fromFile f ≠ .error .formatVersionUnsupported) := by
  constructor
  · intro f h
    simp [CQM.fromFile, h]
  · intro f h
    unfold CQM.fromFile
    rw [if_neg (by omega)]
    split
    · simp
    · rename_i arch heqA
      dsimp only
      split
      · rename_i err heq
        intro hc
        injection hc with hc
        rw [hc] at heq
        unfold CQM.setObjective at heq
        dsimp only at heq
        split at heq
        · rename_i e2 heq2
          injection heq with heq
          rw [heq] at heq2
          have h3 := appendFromList_err arch.objective.varDecls CQM.empty.vars
          unfold CQM.addVariablesFrom at heq2
          dsimp only at heq2
          rcases h3 with h2 | h2 | h2 <;> rw [heq2] at h2 <;> cases h2
        · cases heq
      · exact fromFileLoop_ne_fvu _ _ _

/-- Claim C7 witness: a version-(2,0) blob with an unopenable archive is
rejected by the gate, and a version-(1,0) blob is not rejected by it. -/
theorem claim7_witness :
    CQM.fromFile ⟨(2, 0), ⟨0, 0, 0, none⟩, none⟩ =
      .error .formatVersionUnsupported ∧
    CQM.fromFile ⟨(1, 0), ⟨0, 0, 0, none⟩, none⟩ ≠
      .error .formatVersionUnsupported :=
  ⟨claim7_version_gate.1 _ (by decide),
   claim7_version_gate.2 _ (by decide)⟩

/-! ### Discrete-group machinery -/

theorem alookup_snoc {β : Type} (k v : Nat) (b : β) (l : List (Nat × β))
    (h : alookup v l = none) :
    alookup k (l ++ [(v, b)]) = if k = v then some b else alookup k l := by
  by_cases hk : k = v
  · subst hk
    rw [alookup_append_right _ h]
    simp [alookup]
  · rw [if_neg hk]
    cases hkl : alookup k l with
    | some b' => rw [alookup_append_left _ hkl]
    | none =>
      rw [alookup_append_right _ hkl]
      simp [alookup, hk]

theorem discreteCheck_none_spec {m : CQM} : ∀ {vs : List V},
    m.discreteCheck vs = none → ∀ v ∈ vs,
      v ∉ m.discreteVars ∧
      (alookup v m.vars.entries = none ∨
       alookup v m.vars.entries = some .BINARY) := by
  intro vs
  induction vs with
  | nil => intro _ v hv; cases hv
  | cons w rest ih =>
    intro h v hv
    unfold CQM.discreteCheck at h
    split at h
    · cases h
    · split at h
      · cases h
      · rename_i h1 h2
        rcases List.mem_cons.mp hv with rfl | hv'
        · refine ⟨h1, ?_⟩
          by_cases he : alookup v m.vars.entries = none
          · exact Or.inl he
          · right
            by_contra hb
            exact h2 ⟨Option.ne_none_iff_isSome.mp he, by
              rw [TypedVariables.vartypeOf]
              intro hc
              exact hb hc⟩
        · exact ih h v hv'

theorem addLinear_keys {l : List (V × Bias)} {v : V} {b : Bias} :
    ∀ w, w ∈ (addLinear l v b).map Prod.fst → w ∈ l.map Prod.fst ∨ w = v := by
  intro w hw
  unfold addLinear at hw
  split at hw
  · left
    have hkeys : ∀ (l' : List (V × Bias)),
        (l'.map (fun p => if p.1 = v then (p.1, p.2 + b) else p)).map Prod.fst
          = l'.map Prod.fst := by
      intro l'
      induction l' with
      | nil => rfl
      | cons hd tl ih =>
        by_cases hh : hd.1 = v <;> simp [hh, ih]
    rwa [hkeys] at hw
  · rw [List.map_append] at hw
    rcases List.mem_append.mp hw with h | h
    · left; exact h
    · right; simpa using h

theorem oneHot_keys {vars : List V} :
    ∀ w ∈ (oneHotBQM vars).linear.map Prod.fst, w ∈ vars := by
  have hgen : ∀ (vs : List V) (acc : List (V × Bias)) (w : V),
      w ∈ (vs.foldl (fun l v => addLinear l v 1) acc).map Prod.fst →
      w ∈ acc.map Prod.fst ∨ w ∈ vs := by
    intro vs
    induction vs with
    | nil =>
      intro acc w hw
      left
      exact hw
    | cons v vs ih =>
      intro acc w hw
      rw [List.foldl_cons] at hw
      rcases ih _ w hw with h | h
      · rcases addLinear_keys w h with h' | h'
        · left; exact h'
        · right; simp [h']
      · right
        exact List.mem_cons_of_mem _ h
  intro w hw
  rcases hgen vars [] w hw with h | h
  · simp at h
  · exact h

theorem appendFromList_cons_ok {tv tv1 : TypedVariables} {d : VarDecl}
    (rest : List VarDecl) (h : tv.append d.vt d.v d.lb d.ub = (tv1, none)) :
    appendFromList tv (d :: rest) = appendFromList tv1 rest := by
  unfold appendFromList
  rw [h]
  cases rest <;> rfl

theorem appendBinaryDecls_ok : ∀ (ds : List VarDecl) (tv : TypedVariables),
    (∀ d ∈ ds, d.vt = .BINARY ∧ d.lb = none ∧ d.ub = none ∧
      (alookup d.v tv.entries = none ∨ alookup d.v tv.entries = some .BINARY)) →
    (appendFromList tv ds).2 = none ∧
    (∀ w, alookup w (appendFromList tv ds).1.entries = alookup w tv.entries ∨
      alookup w (appendFromList tv ds).1.entries = some .BINARY) := by
  intro ds
  induction ds with
  | nil =>
    intro tv _
    exact ⟨rfl, fun w => Or.inl rfl⟩
  | cons d rest ih =>
    intro tv h
    obtain ⟨hvt, hlb, hub, hor⟩ := h d (List.mem_cons_self _ _)
    have hrest := fun d' hd' => h d' (List.mem_cons_of_mem _ hd')
    rcases hor with hnone | hbin
    · have hstep2 : tv.append d.vt d.v d.lb d.ub =
          ({ entries := tv.entries ++ [(d.v, d.vt)]
             lowerBounds := tv.lowerBounds ++ []
             upperBounds := tv.upperBounds ++ [] }, none) := by
        rw [tvAppend_new tv d.vt d.lb d.ub hnone, hlb, hub]
      have hpt1 : ∀ w, alookup w (tv.entries ++ [(d.v, d.vt)]) =
          if w = d.v then some d.vt else alookup w tv.entries :=
        fun w => alookup_snoc w d.v d.vt tv.entries hnone
      have hcompat : ∀ d' ∈ rest, d'.vt = .BINARY ∧ d'.lb = none ∧
          d'.ub = none ∧
          (alookup d'.v (tv.entries ++ [(d.v, d.vt)]) = none ∨
           alookup d'.v (tv.entries ++ [(d.v, d.vt)]) = some .BINARY) := by
        intro d' hd'
        obtain ⟨h1, h2, h3, h4⟩ := hrest d' hd'
        refine ⟨h1, h2, h3, ?_⟩
        rw [hpt1 d'.v]
        by_cases hw : d'.v = d.v
        · rw [if_pos hw, hvt]
          right; rfl
        · rw [if_neg hw]
          exact h4
      obtain ⟨hok, hpt2⟩ :=
        ih ({ entries := tv.entries ++ [(d.v, d.vt)]
              lowerBounds := tv.lowerBounds ++ []
              upperBounds := tv.upperBounds ++ [] } : TypedVariables) hcompat
      rw [appendFromList_cons_ok rest hstep2]
      refine ⟨hok, ?_⟩
      intro w
      rcases hpt2 w with h' | h'
      · rw [h']
        show alookup w (tv.entries ++ [(d.v, d.vt)]) = _ ∨ _
        rw [hpt1 w]
        by_cases hw : w = d.v
        · rw [if_pos hw, hvt]
          right; rfl
        · rw [if_neg hw]
          left; rfl
      · right; exact h'
    · have hsome : alookup d.v tv.entries = some d.vt := by
        rw [hbin, hvt]
      have hstep := tvAppend_readd_bs tv d.lb d.ub hsome (Or.inl hvt)
      rw [appendFromList_cons_ok rest hstep]
      exact ih tv hrest

theorem oneHot_decls_ok {m : CQM} {vars : List V}
    (hchk : m.discreteCheck vars = none) :
    ∀ d ∈ (Expr.bqm (oneHotBQM vars)).varDecls, d.vt = .BINARY ∧
      d.lb = none ∧ d.ub = none ∧
      (alookup d.v m.vars.entries = none ∨
       alookup d.v m.vars.entries = some .BINARY) := by
  intro d hd
  rw [Expr.varDecls] at hd
  obtain ⟨p, hp, rfl⟩ := List.mem_map.mp hd
  refine ⟨rfl, rfl, rfl, ?_⟩
  have hv : p.1 ∈ vars :=
    oneHot_keys _ (List.mem_map_of_mem Prod.fst hp)
  exact (discreteCheck_none_spec hchk p.1 hv).2

theorem hasLabel_false_iff {m : CQM} {l : CLabel} :
    m.hasLabel l = false ↔ alookup l m.constraints = none := by
  unfold CQM.hasLabel
  cases alookup l m.constraints <;> simp

theorem commitConstraint_ok_of_append (m : CQM) (e : Expr) (s : Sense)
    (rhs : Bias) (l : CLabel)
    (hok : (appendFromList m.vars e.varDecls).2 = none) :
    m.commitConstraint e s rhs l =
      ({ m with vars := (appendFromList m.vars e.varDecls).1
                constraints := m.constraints ++ [(l, ⟨e, s, rhs⟩)] },
       .ok l) := by
  unfold CQM.commitConstraint CQM.addVariablesFrom
  dsimp only
  rw [hok]

theorem addCFM_onehot_cases {m : CQM} {vars : List V} {label : Option CLabel}
    (cands : List CLabel)
    (hchk : m.discreteCheck vars = none)
    (hlab : label.elim false m.hasLabel = false) :
    (label = none ∧
      m.addConstraintFromModel (.bqm (oneHotBQM vars)) (.enum .eq) 1
        label cands = (m, .error .labelSpaceExhausted)) ∨
    (∃ l, (label = none ∨ label = some l) ∧
      alookup l m.constraints = none ∧
      m.addConstraintFromModel (.bqm (oneHotBQM vars)) (.enum .eq) 1
        label cands =
        ({ m with
            vars := (appendFromList m.vars
              (Expr.bqm (oneHotBQM vars)).varDecls).1
            constraints := m.constraints ++
              [(l, ⟨.bqm (oneHotBQM vars), .eq, 1⟩)] },
         .ok l)) := by
  have hds := oneHot_decls_ok hchk
  have hok := (appendBinaryDecls_ok _ m.vars hds).1
  cases label with
  | none =>
    cases hff : cands.find? (fun c => !(m.hasLabel c)) with
    | none =>
      left
      refine ⟨rfl, ?_⟩
      show (match cands.find? (fun c => !(m.hasLabel c)) with
        | none => (m, Except.error Err.labelSpaceExhausted)
        | some l => m.commitConstraint (.bqm (oneHotBQM vars)) .eq 1 l) = _
      rw [hff]
    | some lf =>
      right
      have hfree : m.hasLabel lf = false := by
        have := List.find?_some hff
        simpa using this
      refine ⟨lf, Or.inl rfl, hasLabel_false_iff.mp hfree, ?_⟩
      show (match cands.find? (fun c => !(m.hasLabel c)) with
        | none => (m, Except.error Err.labelSpaceExhausted)
        | some l => m.commitConstraint (.bqm (oneHotBQM vars)) .eq 1 l) = _
      rw [hff]
      show m.commitConstraint (.bqm (oneHotBQM vars)) .eq 1 lf = _
      rw [commitConstraint_ok_of_append _ _ _ _ _ hok]
  | some l =>
    right
    have hfree : m.hasLabel l = false := hlab
    refine ⟨l, Or.inr rfl, hasLabel_false_iff.mp hfree, ?_⟩
    show (if m.hasLabel l then (m, Except.error Err.duplicateLabel)
      else m.commitConstraint (.bqm (oneHotBQM vars)) .eq 1 l) = _
    rw [hfree, commitConstraint_ok_of_append _ _ _ _ _ hok]
    rfl

theorem addDiscrete_error_state (m : CQM) (vars : List V)
    (label : Option CLabel) (cands : List CLabel) (m' : CQM) (e : Err)
    (h : m.addDiscrete vars label cands = (m', .error e)) : m' = m := by
  unfold CQM.addDiscrete at h
  split at h
  · cases h
    rfl
  · rename_i hlabF
    split at h
    · cases h
      rfl
    · rename_i hchk
      rcases addCFM_onehot_cases cands hchk (Bool.of_not_eq_true hlabF) with
        ⟨hnone, heq⟩ | ⟨l0, _, hfree, heq⟩
      · rw [heq] at h
        injection h with h1 h2
        exact h1.symm
      · rw [heq] at h
        injection h with h1 h2
        cases h2

theorem addDiscrete_ok_state (m : CQM) (vars : List V)
    (label : Option CLabel) (cands : List CLabel) (m' : CQM) (l : CLabel)
    (h : m.addDiscrete vars label cands = (m', .ok l)) :
    alookup l m.constraints = none ∧
    m.discreteCheck vars = none ∧
    m' = { m with
      vars := (appendFromList m.vars (Expr.bqm (oneHotBQM vars)).varDecls).1
      constraints := m.constraints ++ [(l, ⟨.bqm (oneHotBQM vars), .eq, 1⟩)]
      discrete := insert l m.discrete
      discreteVars := m.discreteVars ∪ vars.toFinset } := by
  unfold CQM.addDiscrete at h
  split at h
  · cases h
  · rename_i hlabF
    split at h
    · cases h
    · rename_i hchk
      rcases addCFM_onehot_cases cands hchk (Bool.of_not_eq_true hlabF) with
        ⟨hnone, heq⟩ | ⟨l0, _, hfree, heq⟩
      · rw [heq] at h
        injection h with h1 h2
        cases h2
      · rw [heq] at h
        injection h with h1 h2
        injection h2 with h3
        subst h3
        exact ⟨hfree, hchk, h1.symm⟩

instance (M : TypedVariables) (d : VarDecl) : Decidable (declMatches M d) := by
  unfold declMatches
  infer_instance

instance (m : CQM) : Decidable (Consistent m) := by
  unfold Consistent
  infer_instance

/-! ### Claim C1: the encode/decode round trip -/

/-- A model holding one registered INTEGER variable that appears in no
expression (`add_variable` was called, nothing else). -/
def mIntC : CQM := (CQM.empty.addVariable 0 .INTEGER).1

/-- The model decoded back from `mIntC`'s file. -/
def mIntCDecoded : CQM :=
  match CQM.fromFile mIntC.toFile with
  | .ok m => m
  | .error _ => CQM.empty

/-- Claim C1 counterexample: a model with a registered INTEGER variable
that appears in neither the objective nor any constraint decodes to a
model in which that variable is absent — the round trip does not preserve
the variable vartypes of every model. -/
theorem claim1_counterexample :
    CQM.fromFile mIntC.toFile = .ok mIntCDecoded ∧
    alookup 0 mIntC.vars.entries = some .INTEGER ∧
    alookup 0 mIntCDecoded.vars.entries = none := by
  decide

/-- A small consistent model: a BINARY objective variable and an INTEGER
constraint variable with bounds. -/
def mRT : CQM :=
  { vars := ⟨[(0, .BINARY), (1, .INTEGER)], [(1, 0)], [(1, 10)]⟩
    constraints := [(5, ⟨.qm ⟨[(1, ⟨.INTEGER, 0, 10, 2⟩)], [], 0⟩, .le, 3⟩)]
    objective := .bqm ⟨.BINARY, [(0, 1)], [], 0⟩
    discrete := ∅
    discreteVars := ∅ }

/-- Claim C1 witness: the amended round trip at a concrete consistent
model. -/
theorem claim1_amended_witness :
    Consistent mRT ∧
    (∃ m', CQM.fromFile mRT.toFile = .ok m' ∧
      m'.objective = mRT.objective ∧
      m'.constraints = mRT.constraints ∧
      m'.discrete = mRT.discrete ∧
      (∀ v, alookup v m'.vars.entries = alookup v mRT.vars.entries) ∧
      (∀ v vt, alookup v mRT.vars.entries = some vt →
        vt ≠ .BINARY → vt ≠ .SPIN →
        alookup v m'.vars.lowerBounds = alookup v mRT.vars.lowerBounds ∧
        alookup v m'.vars.upperBounds = alookup v mRT.vars.upperBounds)) :=
  ⟨by decide, claim1_amended mRT (by decide)⟩

/-! ### Claim C2: atomicity of failed adds -/

theorem commitConstraint_error_preserves (m : CQM) (e : Expr) (s : Sense)
    (rhs : Bias) (l : CLabel) (m' : CQM) (err : Err)
    (h : m.commitConstraint e s rhs l = (m', .error err)) :
    m'.constraints = m.constraints ∧ m'.objective = m.objective ∧
    m'.discrete = m.discrete ∧ m'.discreteVars = m.discreteVars := by
  unfold CQM.commitConstraint CQM.addVariablesFrom at h
  dsimp only at h
  split at h
  · injection h with h1 h2
    rw [← h1]
    exact ⟨rfl, rfl, rfl, rfl⟩
  · injection h with h1 h2
    cases h2

theorem addCFM_error_preserves (m : CQM) (e : Expr) (sl : SenseLike)
    (rhs : Bias) (label : Option CLabel) (cands : List CLabel)
    (m' : CQM) (err : Err)
    (h : m.addConstraintFromModel e sl rhs label cands = (m', .error err)) :
    m'.constraints = m.constraints ∧ m'.objective = m.objective ∧
    m'.discrete = m.discrete ∧ m'.discreteVars = m.discreteVars := by
  unfold CQM.addConstraintFromModel at h
  split at h
  · cases h
    exact ⟨rfl, rfl, rfl, rfl⟩
  · split at h
    · split at h
      · cases h
        exact ⟨rfl, rfl, rfl, rfl⟩
      · exact commitConstraint_error_preserves _ _ _ _ _ _ _ h
    · split at h
      · cases h
        exact ⟨rfl, rfl, rfl, rfl⟩
      · exact commitConstraint_error_preserves _ _ _ _ _ _ _ h

theorem addCFM_duplicate (m : CQM) (ex : Expr) (s : Sense) (rhs : Bias)
    (l : CLabel) (cands : List CLabel) (hl : m.hasLabel l = true) :
    m.addConstraintFromModel ex (.enum s) rhs (some l) cands =
      (m, .error .duplicateLabel) := by
  show (if m.hasLabel l then (m, Except.error Err.duplicateLabel)
    else m.commitConstraint ex s rhs l) = _
  simp [hl]

/-- The expression whose second variable conflicts with `mIntC`'s
registered INTEGER variable. -/
def exprC2 : Expr := .bqm ⟨.BINARY, [(1, 1), (0, 1)], [], 0⟩

/-- Claim C2 counterexample: adding a constraint whose binary quadratic
model mentions a fresh variable before a vartype-conflicting one fails
with the vartype conflict, yet leaves the fresh variable newly registered
— the model after the failed call differs from the model before it. -/
theorem claim2_counterexample :
    (mIntC.addConstraintFromModel exprC2 (.enum .le) 0 (some 7) []).2 =
      .error .typeConflict ∧
    (mIntC.addConstraintFromModel exprC2 (.enum .le) 0 (some 7) []).1 ≠
      mIntC ∧
    alookup 1 (mIntC.addConstraintFromModel exprC2 (.enum .le) 0
      (some 7) []).1.vars.entries = some .BINARY := by
  decide

/-- Claim C2 (amended): a failed `add_discrete` leaves the model exactly
as it was; a failed `add_constraint_from_model` leaves the constraint
store, objective, discrete labels and claimed-variable set unchanged —
but not necessarily the variable registry, which may keep variables
registered (and bounds merged) by the partial `_add_variables_from` loop
before the failure; a duplicate-label failure is detected before any
mutation and leaves the model exactly unchanged. -/
theorem claim2_amended :
    (∀ (m : CQM) (vars : List V) (label : Option CLabel)
        (cands : List CLabel) (m' : CQM) (e : Err),
      m.addDiscrete vars label cands = (m', .error e) → m' = m) ∧
    (∀ (m : CQM) (ex : Expr) (sl : SenseLike) (rhs : Bias)
        (label : Option CLabel) (cands : List CLabel) (m' : CQM) (e : Err),
      m.addConstraintFromModel ex sl rhs label cands = (m', .error e) →
      m'.constraints = m.constraints ∧ m'.objective = m.objective ∧
      m'.discrete = m.discrete ∧ m'.discreteVars = m.discreteVars) ∧
    (∀ (m : CQM) (ex : Expr) (s : Sense) (rhs : Bias) (l : CLabel)
        (cands : List CLabel),
      m.hasLabel l = true →
      m.addConstraintFromModel ex (.enum s) rhs (some l) cands =
        (m, .error .duplicateLabel)) :=
  ⟨addDiscrete_error_state,
   addCFM_error_preserves,
   addCFM_duplicate⟩

/-- A model with one discrete group over variables 0 and 1, labelled 3. -/
def mDiscEx : CQM := (CQM.empty.addDiscrete [0, 1] (some 3) []).1

/-- Claim C2 witness: a concrete failed `add_discrete` changes nothing,
and a concrete failed constraint add keeps the constraint store. -/
theorem claim2_amended_witness :
    (mDiscEx.addDiscrete [0] (some 9) []).1 = mDiscEx ∧
    (mIntC.addConstraintFromModel exprC2 (.enum .le) 0 (some 7) []).1.constraints
      = mIntC.constraints :=
  ⟨claim2_amended.1 mDiscEx [0] (some 9) []
      (mDiscEx.addDiscrete [0] (some 9) []).1 .discreteConflict (by decide),
   (claim2_amended.2.1 mIntC exprC2 (.enum .le) 0 (some 7) []
      (mIntC.addConstraintFromModel exprC2 (.enum .le) 0 (some 7) []).1
      .typeConflict (by decide)).1⟩

/-! ### Claim C3: disjointness of discrete groups -/

/-- Run a sequence of `add_discrete` calls; a failed call contributes
nothing (the exception propagates to the caller, the model stays). -/
def runDiscrete : CQM → List (List V × Option CLabel × List CLabel) → CQM
  | m, [] => m
  | m, op :: rest => runDiscrete (m.addDiscrete op.1 op.2.1 op.2.2).1 rest

/-- The variable set of the discrete group recorded under a label: the
variables of that constraint's one-hot left-hand side. -/
def CQM.groupVars (m : CQM) (l : CLabel) : List V :=
  match alookup l m.constraints with
  | some c => c.lhs.varList
  | none => []

/-- No variable belongs to the groups of two distinct discrete labels. -/
def PairwiseDisjointGroups (m : CQM) : Prop :=
  ∀ l₁ ∈ m.discrete, ∀ l₂ ∈ m.discrete, l₁ ≠ l₂ →
    ∀ v ∈ m.groupVars l₁, v ∉ m.groupVars l₂

/-- The discrete-tracking invariant: every recorded group's variables are
claimed in `_discrete`, and groups are pairwise disjoint. -/
def GroupInv (m : CQM) : Prop :=
  (∀ l ∈ m.discrete, ∀ v ∈ m.groupVars l, v ∈ m.discreteVars) ∧
  PairwiseDisjointGroups m

theorem bqm_varList (b : BQModel) :
    (Expr.bqm b).varList = b.linear.map Prod.fst := by
  rw [Expr.varList, Expr.varDecls, List.map_map]
  rfl

theorem GroupInv_addDiscrete (m : CQM) (vars : List V)
    (label : Option CLabel) (cands : List CLabel) (hinv : GroupInv m) :
    GroupInv (m.addDiscrete vars label cands).1 := by
  rcases hpair : m.addDiscrete vars label cands with ⟨m', r⟩
  cases r with
  | error e =>
    have heq : m' = m := addDiscrete_error_state m vars label cands m' e hpair
    show GroupInv m'
    rw [heq]
    exact hinv
  | ok l =>
    obtain ⟨hfree, hchk, hshape⟩ :=
      addDiscrete_ok_state m vars label cands m' l hpair
    show GroupInv m'
    subst hshape
    have hveto : ∀ v ∈ vars, v ∉ m.discreteVars :=
      fun v hv => (discreteCheck_none_spec hchk v hv).1
    set m₂ : CQM :=
      { m with
        vars := (appendFromList m.vars
          (Expr.bqm (oneHotBQM vars)).varDecls).1
        constraints := m.constraints ++ [(l, ⟨.bqm (oneHotBQM vars), .eq, 1⟩)]
        discrete := insert l m.discrete
        discreteVars := m.discreteVars ∪ vars.toFinset } with hm2
    have hgv_new : ∀ v ∈ m₂.groupVars l, v ∈ vars := by
      intro v hv
      rw [CQM.groupVars] at hv
      rw [hm2] at hv
      dsimp only at hv
      rw [alookup_snoc l l _ m.constraints hfree, if_pos rfl] at hv
      have hv' : v ∈ (Expr.bqm (oneHotBQM vars)).varList := hv
      rw [bqm_varList] at hv'
      exact oneHot_keys v hv'
    have hgv_old : ∀ l', l' ≠ l → m₂.groupVars l' = m.groupVars l' := by
      intro l' hne
      rw [CQM.groupVars, CQM.groupVars]
      rw [hm2]
      dsimp only
      rw [alookup_snoc l' l _ m.constraints hfree, if_neg hne]
    have hm2disc : m₂.discrete = insert l m.discrete := rfl
    have hm2dv : m₂.discreteVars = m.discreteVars ∪ vars.toFinset := rfl
    constructor
    · intro l₁ hl₁ v hv
      rw [hm2dv]
      by_cases hl1l : l₁ = l
      · subst hl1l
        exact Finset.mem_union_right _ (List.mem_toFinset.mpr (hgv_new v hv))
      · have hl₁m : l₁ ∈ m.discrete := by
          rcases Finset.mem_insert.mp (hm2disc ▸ hl₁) with h | h
          · exact absurd h hl1l
          · exact h
        rw [hgv_old l₁ hl1l] at hv
        exact Finset.mem_union_left _ (hinv.1 l₁ hl₁m v hv)
    · intro l₁ hl₁ l₂ hl₂ hne v hv
      by_cases hl1l : l₁ = l
      · subst hl1l
        have hl₂m : l₂ ∈ m.discrete := by
          rcases Finset.mem_insert.mp (hm2disc ▸ hl₂) with h | h
          · exact absurd h (Ne.symm hne)
          · exact h
        have hvv : v ∈ vars := hgv_new v hv
        rw [hgv_old l₂ (Ne.symm hne)]
        intro hc
        exact hveto v hvv (hinv.1 l₂ hl₂m v hc)
      · have hl₁m : l₁ ∈ m.discrete := by
          rcases Finset.mem_insert.mp (hm2disc ▸ hl₁) with h | h
          · exact absurd h hl1l
          · exact h
        rw [hgv_old l₁ hl1l] at hv
        by_cases hl2l : l₂ = l
        · subst hl2l
          intro hc
          exact hveto v (hgv_new v hc) (hinv.1 l₁ hl₁m v hv)
        · have hl₂m : l₂ ∈ m.discrete := by
            rcases Finset.mem_insert.mp (hm2disc ▸ hl₂) with h | h
            · exact absurd h hl2l
            · exact h
          rw [hgv_old l₂ hl2l]
          exact hinv.2 l₁ hl₁m l₂ hl₂m hne v hv

theorem GroupInv_runDiscrete :
    ∀ (ops : List (List V × Option CLabel × List CLabel)) (m : CQM),
    GroupInv m → GroupInv (runDiscrete m ops) := by
  intro ops
  induction ops with
  | nil => intro m h; exact h
  | cons op rest ih =>
    intro m h
    exact ih _ (GroupInv_addDiscrete m op.1 op.2.1 op.2.2 h)

theorem GroupInv_empty : GroupInv CQM.empty := by
  constructor
  · intro l hl
    simp [CQM.empty] at hl
  · intro l₁ hl₁
    simp [CQM.empty] at hl₁

theorem discreteCheck_conflict {m : CQM} : ∀ {vs : List V},
    (∀ v ∈ vs, (alookup v m.vars.entries).isSome →
      m.vars.vartypeOf v = some .BINARY) →
    (∃ v ∈ vs, v ∈ m.discreteVars) →
    m.discreteCheck vs = some .discreteConflict := by
  intro vs
  induction vs with
  | nil =>
    rintro _ ⟨v, hv, _⟩
    cases hv
  | cons w rest ih =>
    intro hbin hex
    unfold CQM.discreteCheck
    by_cases hw : w ∈ m.discreteVars
    · rw [if_pos hw]
    · rw [if_neg hw, if_neg]
      · apply ih (fun v hv => hbin v (List.mem_cons_of_mem _ hv))
        rcases hex with ⟨v, hv, hvd⟩
        rcases List.mem_cons.mp hv with rfl | hv'
        · exact absurd hvd hw
        · exact ⟨v, hv', hvd⟩
      · rintro ⟨hs, hne⟩
        exact hne (hbin w (List.mem_cons_self _ _) hs)

theorem addDiscrete_overlap_conflict (m : CQM) (vars : List V) (l : CLabel)
    (cands : List CLabel) (hl : m.hasLabel l = false)
    (hbin : ∀ v ∈ vars, (alookup v m.vars.entries).isSome →
      m.vars.vartypeOf v = some .BINARY)
    (hex : ∃ v ∈ vars, v ∈ m.discreteVars) :
    m.addDiscrete vars (some l) cands = (m, .error .discreteConflict) := by
  unfold CQM.addDiscrete
  rw [show ((some l).elim false m.hasLabel) = false from hl]
  rw [if_neg (by simp)]
  rw [discreteCheck_conflict hbin hex]

/-- Claim C3: for every sequence of `add_discrete` calls starting from a
fresh model, no variable belongs to the recorded groups of two distinct
discrete labels (the union of all groups has no duplicate member); a call
whose variables overlap an existing group (with an otherwise valid label
and BINARY variables) fails with the discrete-conflict error; and every
failing `add_discrete` call leaves the model, and so every previously
recorded group, exactly unchanged. -/
theorem claim3_discrete_disjointness :
    (∀ ops : List (List V × Option CLabel × List CLabel),
      PairwiseDisjointGroups (runDiscrete CQM.empty ops)) ∧
    (∀ (m : CQM) (vars : List V) (l : CLabel) (cands : List CLabel),
      m.hasLabel l = false →
      (∀ v ∈ vars, (alookup v m.vars.entries).isSome →
        m.vars.vartypeOf v = some .BINARY) →
      (∃ v ∈ vars, v ∈ m.discreteVars) →
      m.addDiscrete vars (some l) cands = (m, .error .discreteConflict)) ∧
    (∀ (m : CQM) (vars : List V) (label : Option CLabel)
        (cands : List CLabel) (m' : CQM) (e : Err),
      m.addDiscrete vars label cands = (m', .error e) → m' = m) :=
  ⟨fun ops => (GroupInv_runDiscrete ops CQM.empty GroupInv_empty).2,
   addDiscrete_overlap_conflict,
   addDiscrete_error_state⟩

/-- Claim C3 witness: a concrete two-group run is pairwise disjoint, and a
concrete overlapping call fails with the discrete conflict, leaving the
model unchanged. -/
theorem claim3_witness :
    PairwiseDisjointGroups
      (runDiscrete CQM.empty [([0, 1], some 3, []), ([2, 3], some 4, [])]) ∧
    mDiscEx.addDiscrete [1, 2] (some 8) [] =
      (mDiscEx, .error .discreteConflict) ∧
    (mDiscEx.addDiscrete [1, 2] (some 8) []).1 = mDiscEx :=
  ⟨claim3_discrete_disjointness.1 _,
   claim3_discrete_disjointness.2.1 mDiscEx [1, 2] 8 [] (by decide)
     (by decide) ⟨1, by decide, by decide⟩,
   claim3_discrete_disjointness.2.2 mDiscEx [1, 2] (some 8) []
     (mDiscEx.addDiscrete [1, 2] (some 8) []).1 .discreteConflict (by decide)⟩

/-! ### Claim C8: label uniqueness -/

theorem commitConstraint_ok_payload (m : CQM) (e : Expr) (s : Sense)
    (rhs : Bias) (l0 : CLabel) (m' : CQM) (l : CLabel)
    (h : m.commitConstraint e s rhs l0 = (m', .ok l)) : l = l0 := by
  unfold CQM.commitConstraint at h
  dsimp only at h
  split at h
  · injection h with h1 h2
    cases h2
  · injection h with h1 h2
    injection h2 with h3
    exact h3.symm

theorem addDiscrete_duplicate (m : CQM) (vars : List V) (l : CLabel)
    (cands : List CLabel) (hl : m.hasLabel l = true) :
    m.addDiscrete vars (some l) cands = (m, .error .duplicateLabel) := by
  unfold CQM.addDiscrete
  have : (some l).elim false m.hasLabel = true := hl
  rw [this]
  rfl

theorem addCFM_auto_label_fresh (m : CQM) (ex : Expr) (sl : SenseLike)
    (rhs : Bias) (cands : List CLabel) (m' : CQM) (l : CLabel)
    (h : m.addConstraintFromModel ex sl rhs none cands = (m', .ok l)) :
    m.hasLabel l = false := by
  cases hres : resolveSense sl with
  | none =>
    have heq2 : m.addConstraintFromModel ex sl rhs none cands =
        (m, .error .unexpectedSense) := by
      unfold CQM.addConstraintFromModel
      rw [hres]
    rw [heq2] at h
    injection h with h1 h2
    cases h2
  | some s =>
    cases heqf : cands.find? (fun c => !(m.hasLabel c)) with
    | none =>
      have heq2 : m.addConstraintFromModel ex sl rhs none cands =
          (m, .error .labelSpaceExhausted) := by
        unfold CQM.addConstraintFromModel
        rw [hres]
        show (match cands.find? (fun c => !(m.hasLabel c)) with
          | none => (m, Except.error Err.labelSpaceExhausted)
          | some l => m.commitConstraint ex s rhs l) = _
        rw [heqf]
      rw [heq2] at h
      injection h with h1 h2
      cases h2
    | some lf =>
      have heq2 : m.addConstraintFromModel ex sl rhs none cands =
          m.commitConstraint ex s rhs lf := by
        unfold CQM.addConstraintFromModel
        rw [hres]
        show (match cands.find? (fun c => !(m.hasLabel c)) with
          | none => (m, Except.error Err.labelSpaceExhausted)
          | some l => m.commitConstraint ex s rhs l) = _
        rw [heqf]
      rw [heq2] at h
      have hlf : l = lf := commitConstraint_ok_payload _ _ _ _ _ _ _ h
      subst hlf
      have := List.find?_some heqf
      simpa using this

/-- Claim C8: supplying an explicit label that already names a constraint
makes both `add_constraint_from_model` and `add_discrete` fail with the
duplicate-label error and no state change; and when no label is supplied,
the label both operations return is never one already present in the
model (the retry loop only ever returns a fresh candidate). -/
theorem claim8_label_uniqueness :
    (∀ (m : CQM) (ex : Expr) (s : Sense) (rhs : Bias) (l : CLabel)
        (cands : List CLabel),
      m.hasLabel l = true →
      m.addConstraintFromModel ex (.enum s) rhs (some l) cands =
        (m, .error .duplicateLabel)) ∧
    (∀ (m : CQM) (vars : List V) (l : CLabel) (cands : List CLabel),
      m.hasLabel l = true →
      m.addDiscrete vars (some l) cands = (m, .error .duplicateLabel)) ∧
    (∀ (m : CQM) (ex : Expr) (sl : SenseLike) (rhs : Bias)
        (cands : List CLabel) (m' : CQM) (l : CLabel),
      m.addConstraintFromModel ex sl rhs none cands = (m', .ok l) →
      m.hasLabel l = false) ∧
    (∀ (m : CQM) (vars : List V) (cands : List CLabel) (m' : CQM)
        (l : CLabel),
      m.addDiscrete vars none cands = (m', .ok l) →
      m.hasLabel l = false) := by
  refine ⟨addCFM_duplicate, addDiscrete_duplicate, addCFM_auto_label_fresh, ?_⟩
  intro m vars cands m' l h
  obtain ⟨hfree, _, _⟩ := addDiscrete_ok_state m vars none cands m' l h
  exact hasLabel_false_iff.mpr hfree

/-- Claim C8 witness: a duplicate explicit label is rejected on a concrete
model, and a concrete auto-generated label is fresh. -/
theorem claim8_witness :
    mDiscEx.addConstraintFromModel (.bqm ⟨.BINARY, [(0, 1)], [], 0⟩)
        (.enum .eq) 0 (some 3) [] = (mDiscEx, .error .duplicateLabel) ∧
    mDiscEx.addDiscrete [4, 5] (some 3) [] =
      (mDiscEx, .error .duplicateLabel) ∧
    mDiscEx.hasLabel 6 = false :=
  ⟨claim8_label_uniqueness.1 mDiscEx _ .eq 0 3 [] (by decide),
   claim8_label_uniqueness.2.1 mDiscEx [4, 5] 3 [] (by decide),
   claim8_label_uniqueness.2.2.1 mDiscEx (.bqm ⟨.BINARY, [(4, 1)], [], 0⟩)
     (.enum .le) 0 [6]
     (mDiscEx.addConstraintFromModel (.bqm ⟨.BINARY, [(4, 1)], [], 0⟩)
       (.enum .le) 0 none [6]).1 6 (by decide)⟩

/-! ### Claim C10: decoded discrete groups do not claim their variables -/

theorem addCFM_discreteVars (m : CQM) (e : Expr) (sl : SenseLike)
    (rhs : Bias) (label : Option CLabel) (cands : List CLabel) :
    (m.addConstraintFromModel e sl rhs label cands).1.discreteVars =
      m.discreteVars := by
  unfold CQM.addConstraintFromModel CQM.commitConstraint CQM.addVariablesFrom
  dsimp only
  split
  · rfl
  · split
    · split
      · rfl
      · split <;> rfl
    · split
      · rfl
      · split <;> rfl

theorem setObjective_discreteVars (m : CQM) (e : Expr) :
    ((m.setObjective e).1).discreteVars = m.discreteVars := by
  unfold CQM.setObjective CQM.addVariablesFrom
  dsimp only
  split <;> rfl

theorem fromFileLoop_discreteVars (arch : CQMArchive) :
    ∀ (ls : List CLabel) (mi mf : CQM), mi.discreteVars = ∅ →
    fromFileLoop arch mi ls = .ok mf → mf.discreteVars = ∅ := by
  intro ls
  induction ls with
  | nil =>
    intro mi mf h0 h
    injection h with h1
    rw [← h1]
    exact h0
  | cons l rest ih =>
    intro mi mf h0 h
    unfold fromFileLoop at h
    split at h
    · cases h
    · rename_i entry heqA
      split at h
      · cases h
      · rename_i mx lbl heq
        refine ih _ mf ?_ h
        have hdv := addCFM_discreteVars mi entry.lhs (.str entry.sense)
          entry.rhs (some l) []
        rw [heq] at hdv
        have hdv2 : mx.discreteVars = mi.discreteVars := hdv
        by_cases hd : entry.discrete <;> simp [hd, hdv2, h0]

theorem fromFile_discreteVars (f : CQMFileData) (mf : CQM)
    (h : CQM.fromFile f = .ok mf) : mf.discreteVars = ∅ := by
  unfold CQM.fromFile at h
  split at h
  · cases h
  · split at h
    · cases h
    · rename_i arch heqA
      dsimp only at h
      split at h
      · cases h
      · refine fromFileLoop_discreteVars arch _ _ mf ?_ h
        rw [setObjective_discreteVars]
        rfl

theorem discreteCheck_none_of {m : CQM} : ∀ {vs : List V},
    (∀ v ∈ vs, v ∉ m.discreteVars ∧
      (alookup v m.vars.entries = none ∨
       alookup v m.vars.entries = some .BINARY)) →
    m.discreteCheck vs = none := by
  intro vs
  induction vs with
  | nil => intro _; rfl
  | cons w rest ih =>
    intro h
    obtain ⟨h1, h2⟩ := h w (List.mem_cons_self _ _)
    unfold CQM.discreteCheck
    rw [if_neg h1, if_neg]
    · exact ih (fun v hv => h v (List.mem_cons_of_mem _ hv))
    · rintro ⟨hs, hne⟩
      rcases h2 with hn | hb
      · rw [hn] at hs
        cases hs
      · exact hne (by rw [TypedVariables.vartypeOf, hb])

theorem addDiscrete_succeeds (m : CQM) (vars : List V) (l : CLabel)
    (hdv : m.discreteVars = ∅) (hl : m.hasLabel l = false)
    (hbin : ∀ v ∈ vars, alookup v m.vars.entries = none ∨
      alookup v m.vars.entries = some .BINARY) :
    ∃ m', m.addDiscrete vars (some l) [] = (m', .ok l) := by
  have hchk : m.discreteCheck vars = none :=
    discreteCheck_none_of (fun v hv => ⟨by rw [hdv]; exact Finset.not_mem_empty v,
      hbin v hv⟩)
  have hlab : (some l).elim false m.hasLabel = false := hl
  rcases addCFM_onehot_cases [] hchk hlab with
    ⟨hnone, _⟩ | ⟨l0, hor, hfree, heq⟩
  · cases hnone
  · have hl0 : l0 = l := by
      rcases hor with hc | hc
      · cases hc
      · exact (Option.some.inj hc).symm
    subst hl0
    have hfin : m.addDiscrete vars (some l0) [] =
        ({ m with
            vars := (appendFromList m.vars
              (Expr.bqm (oneHotBQM vars)).varDecls).1
            constraints := m.constraints ++
              [(l0, ⟨.bqm (oneHotBQM vars), .eq, 1⟩)]
            discrete := insert l0 m.discrete
            discreteVars := m.discreteVars ∪ vars.toFinset }, .ok l0) := by
      unfold CQM.addDiscrete
      rw [show ((some l0).elim false m.hasLabel) = false from hl]
      rw [if_neg (by simp)]
      rw [hchk]
      rw [heq]
    exact ⟨_, hfin⟩

/-- Claim C10: for every model produced by `from_file`, the internal set
of variables claimed by discrete groups (`_discrete`) is empty, even when
the decoded file contained discrete-marked constraints; consequently a
subsequent `add_discrete` with a fresh label over variables that are
unregistered or BINARY — in particular variables of a decoded discrete
group — succeeds rather than failing with a discrete conflict. -/
theorem claim10_decoded_discrete_unprotected :
    (∀ (f : CQMFileData) (mf : CQM), CQM.fromFile f = .ok mf →
      mf.discreteVars = ∅) ∧
    (∀ (m : CQM) (vars : List V) (l : CLabel),
      m.discreteVars = ∅ → m.hasLabel l = false →
      (∀ v ∈ vars, alookup v m.vars.entries = none ∨
        alookup v m.vars.entries = some .BINARY) →
      ∃ m', m.addDiscrete vars (some l) [] = (m', .ok l)) :=
  ⟨fromFile_discreteVars, addDiscrete_succeeds⟩

/-- The model decoded back from `mDiscEx`'s file: it still holds the
discrete-marked constraint 3 over the BINARY variables 0 and 1. -/
def mDiscExDecoded : CQM :=
  match CQM.fromFile mDiscEx.toFile with
  | .ok m => m
  | .error _ => CQM.empty

/-- Claim C10 witness: decoding a file with a discrete group leaves
`_discrete` empty, and re-grouping the very same variables succeeds. -/
theorem claim10_witness :
    CQM.fromFile mDiscEx.toFile = .ok mDiscExDecoded ∧
    mDiscExDecoded.discreteVars = ∅ ∧
    (∃ m', mDiscExDecoded.addDiscrete [0, 1] (some 4) [] = (m', .ok 4)) :=
  ⟨by decide,
   claim10_decoded_discrete_unprotected.1 mDiscEx.toFile mDiscExDecoded
     (by decide),
   claim10_decoded_discrete_unprotected.2 mDiscExDecoded [0, 1] 4
     (by decide) (by decide) (by decide)⟩

end Dimod
